import Mathlib

/-!
Verification of the JSP language-server definition-resolution engine.

The TypeScript server (`src/server.ts`) is shallowly embedded here:
document text and JavaScript strings become `List Char`, filesystem trees
become an inductive `FsObj`, JavaScript string indices become `Nat`/`Int`
with the clamping semantics of `String.prototype.substring`,
`indexOf` and `lastIndexOf`, and code that can throw runs in
`Except Unit`.  Paths are modelled as lists of path segments
(`path.join` appends segments, `path.dirname` drops the last one).
-/

namespace JspSupport

instance {ε α : Type} [DecidableEq ε] [DecidableEq α] : DecidableEq (Except ε α) := fun x y =>
  match x, y with
  | .ok a, .ok b => decidable_of_iff (a = b) (by simp)
  | .error a, .error b => decidable_of_iff (a = b) (by simp)
  | .ok _, .error _ => isFalse (fun hcon => by cases hcon)
  | .error _, .ok _ => isFalse (fun hcon => by cases hcon)

/-- JavaScript strings, embedded as lists of characters. -/
abbrev JStr := List Char

/-- The whitespace class used by JavaScript `trim`, `\s` (ASCII part). -/
def jsIsWs (c : Char) : Bool :=
  c = ' ' || c = '\t' || c = '\n' || c = '\r' || c = Char.ofNat 11 || c = Char.ofNat 12

/-- JavaScript `String.prototype.trim`. -/
def jsTrim (s : JStr) : JStr :=
  ((s.dropWhile jsIsWs).reverse.dropWhile jsIsWs).reverse

/-- JavaScript `String.prototype.split` with a single-character separator. -/
def splitOnChar (c : Char) : JStr → List JStr
  | [] => [[]]
  | x :: xs =>
    match splitOnChar c xs with
    | [] => [[]]
    | y :: ys => if x = c then [] :: y :: ys else (x :: y) :: ys

/-- `Array.prototype.join` with a separator string. -/
def joinWith (sep : JStr) : List JStr → JStr
  | [] => []
  | [x] => x
  | x :: y :: ys => x ++ sep ++ joinWith sep (y :: ys)

/-- `s.split('(')[0]`: everything before the first opening parenthesis. -/
def takeBeforeParen (s : JStr) : JStr := s.takeWhile (fun c => c != '(')

/-- Index of the first occurrence of character `c` (`indexOf`, as an option). -/
def firstIdxOpt (c : Char) : JStr → Option Nat
  | [] => none
  | x :: xs => if x = c then some 0 else (firstIdxOpt c xs).map (· + 1)

/-- Index of the last occurrence of character `c` (`lastIndexOf`, as an option). -/
def lastIdxOpt (c : Char) : JStr → Option Nat
  | [] => none
  | x :: xs =>
    match lastIdxOpt c xs with
    | some i => some (i + 1)
    | none => if x = c then some 0 else none

/-- Result record of `splitJavaPathRevised`: the `class` and `function`
fields of the object the TypeScript function returns. -/
structure SplitResult where
  klass : JStr
  func : JStr
deriving DecidableEq, Repr

/-- Embeds `splitJavaPathRevised` from `src/server.ts` (lines 599-639):
blank input yields empty parts; otherwise the function name is the part
after the last dot truncated at its first `(`; the class is the part
before the last dot, truncated at its first `(` when it contains one. -/
def splitJavaPathRevised (fullPath : JStr) : SplitResult :=
  if jsTrim fullPath = [] then ⟨[], []⟩
  else
    match lastIdxOpt '.' fullPath with
    | none => ⟨[], takeBeforeParen fullPath⟩
    | some lastDotIndex =>
      let methodPart := fullPath.drop (lastDotIndex + 1)
      let functionName := takeBeforeParen methodPart
      let classPath := fullPath.take lastDotIndex
      let className :=
        match firstIdxOpt '(' classPath with
        | some firstParenIndex => classPath.take firstParenIndex
        | none => classPath
      ⟨className, functionName⟩

/-- Claim-side restatement of the split rule, written from the spec:
method name = substring after the last dot truncated at the first `(`;
class = substring before the last dot truncated at its first `(`;
with no dot at all the class is empty and the method is the whole
input truncated at its first `(`. -/
def splitClassAndMethodSpec (s : JStr) : SplitResult :=
  let parts := splitOnChar '.' s
  if parts.length ≤ 1 then ⟨[], takeBeforeParen s⟩
  else ⟨takeBeforeParen (joinWith ['.'] parts.dropLast), takeBeforeParen (parts.getLastD [])⟩

theorem splitOnChar_ne_nil (c : Char) (s : JStr) : splitOnChar c s ≠ [] := by
  cases s with
  | nil => simp [splitOnChar]
  | cons x xs =>
    rcases h : splitOnChar c xs with - | ⟨y, ys⟩
    · simp [splitOnChar, h]
    · by_cases hx : x = c <;> simp [splitOnChar, h, hx]

theorem lastIdxOpt_none_iff (c : Char) (s : JStr) :
    lastIdxOpt c s = none ↔ splitOnChar c s = [s] := by
  induction s with
  | nil => simp [lastIdxOpt, splitOnChar]
  | cons x xs ih =>
    rcases hs : splitOnChar c xs with - | ⟨y, ys⟩
    · exact absurd hs (splitOnChar_ne_nil c xs)
    rcases h : lastIdxOpt c xs with - | i
    · rw [h, hs] at ih
      obtain ⟨hy, hys⟩ : y = xs ∧ ys = [] := by
        have h2 := ih.mp rfl
        simpa using h2
      subst hy; subst hys
      by_cases hx : x = c <;>
        simp [lastIdxOpt, splitOnChar, h, hs, hx]
    · rw [h, hs] at ih
      constructor
      · intro hc
        simp [lastIdxOpt, h] at hc
      · intro heq
        by_cases hx : x = c
        · simp [splitOnChar, hs, hx] at heq
        · simp only [splitOnChar, hs, if_neg hx] at heq
          obtain ⟨hy, hys⟩ : y = xs ∧ ys = [] := by simpa using heq
          have hcon := ih.mpr (by rw [hy, hys])
          simp at hcon

theorem joinWith_cons_ne_nil (sep a : JStr) (l : List JStr) (h : l ≠ []) :
    joinWith sep (a :: l) = a ++ sep ++ joinWith sep l := by
  cases l with
  | nil => exact absurd rfl h
  | cons b bs => rfl

theorem joinWith_splitOnChar (c : Char) (s : JStr) :
    joinWith [c] (splitOnChar c s) = s := by
  induction s with
  | nil => rfl
  | cons x xs ih =>
    rcases hs : splitOnChar c xs with - | ⟨y, ys⟩
    · exact absurd hs (splitOnChar_ne_nil c xs)
    rw [hs] at ih
    by_cases hx : x = c
    · subst hx
      have hsplit : splitOnChar x (x :: xs) = [] :: y :: ys := by
        simp [splitOnChar, hs]
      rw [hsplit, joinWith_cons_ne_nil _ _ _ (by simp)]
      simpa using ih
    · simp only [splitOnChar, hs, if_neg hx]
      cases ys with
      | nil =>
        have hy : y = xs := by simpa [joinWith] using ih
        simp [joinWith, hy]
      | cons z zs =>
        rw [joinWith_cons_ne_nil _ _ _ (by simp)]
        rw [joinWith_cons_ne_nil _ _ _ (by simp)] at ih
        simpa using ih

theorem lastIdxOpt_some_split (c : Char) (s : JStr) (i : Nat)
    (h : lastIdxOpt c s = some i) :
    s.take i = joinWith [c] ((splitOnChar c s).dropLast) ∧
    s.drop (i + 1) = (splitOnChar c s).getLastD [] := by
  induction s generalizing i with
  | nil => simp [lastIdxOpt] at h
  | cons x xs ih =>
    rcases hs : splitOnChar c xs with - | ⟨y, ys⟩
    · exact absurd hs (splitOnChar_ne_nil c xs)
    rcases hl : lastIdxOpt c xs with - | j
    · have hsingle : y = xs ∧ ys = [] := by
        have := (lastIdxOpt_none_iff c xs).mp hl
        rw [hs] at this
        simpa using this
      obtain ⟨hy, hys⟩ := hsingle
      subst hy; subst hys
      simp only [lastIdxOpt, hl] at h
      by_cases hx : x = c
      · rw [if_pos hx] at h
        obtain rfl : i = 0 := by simpa using h.symm
        subst hx
        simp [splitOnChar, hs, joinWith]
      · rw [if_neg hx] at h
        simp at h
    · simp only [lastIdxOpt, hl] at h
      obtain rfl : i = j + 1 := by simpa using h.symm
      obtain ⟨ih1, ih2⟩ := ih j hl
      rw [hs] at ih1 ih2
      have hys : ys ≠ [] := by
        intro hcon
        subst hcon
        have hy : y = xs := by
          have hrt := joinWith_splitOnChar c xs
          rw [hs] at hrt
          simpa [joinWith] using hrt
        have hnone := (lastIdxOpt_none_iff c xs).mpr (by rw [hs, hy])
        rw [hl] at hnone
        simp at hnone
      rcases ys with - | ⟨z, zs⟩
      · exact absurd rfl hys
      by_cases hx : x = c
      · subst hx
        have hsplit : splitOnChar x (x :: xs) = [] :: y :: z :: zs := by
          simp [splitOnChar, hs]
        rw [hsplit]
        constructor
        · rw [List.dropLast_cons_of_ne_nil (by simp)]
          rw [joinWith_cons_ne_nil _ _ _ (by simp [List.dropLast_cons_of_ne_nil])]
          simp only [List.take_succ_cons, List.nil_append]
          rw [← ih1]
          rfl
        · simpa using ih2
      · have hsplit : splitOnChar c (x :: xs) = (x :: y) :: z :: zs := by
          simp [splitOnChar, hs, hx]
        rw [hsplit]
        constructor
        · rw [List.dropLast_cons_of_ne_nil (by simp)]
          rw [List.dropLast_cons_of_ne_nil (by simp)] at ih1
          rcases hdl : (z :: zs).dropLast with - | ⟨u, us⟩
          · rw [hdl] at ih1
            simp only [joinWith] at ih1 ⊢
            simp [ih1]
          · rw [hdl] at ih1
            rw [joinWith_cons_ne_nil _ _ _ (by simp)]
            rw [joinWith_cons_ne_nil _ _ _ (by simp)] at ih1
            simp [ih1]
        · simpa using ih2

theorem firstIdxOpt_takeBeforeParen (t : JStr) :
    takeBeforeParen t = (match firstIdxOpt '(' t with
     | some p => t.take p
     | none => t) := by
  induction t with
  | nil => rfl
  | cons x ts ih =>
    by_cases hx : x = '('
    · subst hx
      simp [firstIdxOpt, takeBeforeParen, List.takeWhile]
    · rcases hf : firstIdxOpt '(' ts with - | p <;> rw [hf] at ih <;>
        simp [firstIdxOpt, hf, hx, takeBeforeParen, List.takeWhile_cons, ih] <;>
        simpa [takeBeforeParen] using ih

theorem split_len_of_lastIdx_some (c : Char) (s : JStr) (i : Nat)
    (h : lastIdxOpt c s = some i) : ¬ (splitOnChar c s).length ≤ 1 := by
  intro hlen
  rcases hsp : splitOnChar c s with - | ⟨y, ys⟩
  · exact absurd hsp (splitOnChar_ne_nil c s)
  rcases ys with - | ⟨z, zs⟩
  · have hy : y = s := by
      have hrt := joinWith_splitOnChar c s
      rw [hsp] at hrt
      simpa [joinWith] using hrt
    have hnone := (lastIdxOpt_none_iff c s).mpr (by rw [hsp, hy])
    rw [h] at hnone
    simp at hnone
  · rw [hsp] at hlen
    simp at hlen

/-- C8 counterexample: on the whitespace-only input the TypeScript function
takes the blank-input guard and returns empty class and method, while the
claimed rule ("for every input string ... methodName = the whole input
truncated at its first paren when there is no dot") demands the method
name be the single space. -/
theorem c8_blank_input_counterexample :
    splitJavaPathRevised [' '] = ⟨[], []⟩ ∧
    splitClassAndMethodSpec [' '] = ⟨[], [' ']⟩ ∧
    (⟨[], []⟩ : SplitResult) ≠ ⟨[], [' ']⟩ :=
  ⟨by decide, by decide, by decide⟩

/-- C8 (amended): for every input string whose trimmed content is nonempty,
`splitJavaPathRevised` follows the claimed rule exactly: methodName is the
substring after the last dot truncated at its first paren, className the
substring before the last dot truncated at its first paren, and with no
dot the className is empty and methodName is the whole input truncated at
its first paren; blank (empty or whitespace-only) inputs return both
components empty. -/
theorem c8_split_class_and_method (s : JStr) :
    (jsTrim s ≠ [] → splitJavaPathRevised s = splitClassAndMethodSpec s) ∧
    (jsTrim s = [] → splitJavaPathRevised s = ⟨[], []⟩) := by
  constructor
  · intro hne
    rcases h : lastIdxOpt '.' s with - | i
    · have hsp := (lastIdxOpt_none_iff '.' s).mp h
      simp [splitJavaPathRevised, splitClassAndMethodSpec, hne, h, hsp]
    · have hlen := split_len_of_lastIdx_some '.' s i h
      obtain ⟨h1, h2⟩ := lastIdxOpt_some_split '.' s i h
      simp only [splitJavaPathRevised, splitClassAndMethodSpec, if_neg hne, h, if_neg hlen]
      have hk : takeBeforeParen (joinWith ['.'] (splitOnChar '.' s).dropLast)
          = (match firstIdxOpt '(' (s.take i) with
             | some p => (s.take i).take p
             | none => s.take i) := by
        rw [← h1, firstIdxOpt_takeBeforeParen]
      have hf : takeBeforeParen ((splitOnChar '.' s).getLastD [])
          = takeBeforeParen (s.drop (i + 1)) := by
        rw [h2]
      rw [SplitResult.mk.injEq]
      exact ⟨hk.symm, hf.symm⟩
  · intro he
    simp [splitJavaPathRevised, he]

/-- Witness for C8: the amended rule evaluated at a concrete dotted call path. -/
theorem c8_split_class_and_method_witness :
    splitJavaPathRevised "obj.foo(a)".toList = splitClassAndMethodSpec "obj.foo(a)".toList :=
  (c8_split_class_and_method "obj.foo(a)".toList).1 (by decide)

/-- The operator character class `[+\-*/%=<>&|!~^]` of `extractMethodParameters`. -/
def isJsOperator (c : Char) : Bool :=
  c = '+' || c = '-' || c = '*' || c = '/' || c = '%' || c = '=' ||
  c = '<' || c = '>' || c = '&' || c = '|' || c = '!' || c = '~' || c = '^'

/-- The scanning loop of `extractMethodParameters` (src/server.ts lines
661-719).  `prev` is the previous character of the original text; the
remaining text is the last argument.  String literals are tracked with a
backslash-escape check on the previous character, brackets of all three
kinds change the depth, a comma at depth zero ends a parameter, and the
first unmatched closing bracket ends the call (pushing the pending
parameter only when its trimmed content is nonempty). -/
def empLoop (prev : Char) (inString : Bool) (stringChar : Char) (bracketCount : Int)
    (currentParam : JStr) (params : List JStr) : JStr → List JStr
  | [] => params
  | c :: rest =>
    if (c == '"' || c == '\'') && prev != '\\' then
      if !inString then empLoop c true c bracketCount (currentParam ++ [c]) params rest
      else if c == stringChar then empLoop c false stringChar bracketCount (currentParam ++ [c]) params rest
      else empLoop c inString stringChar bracketCount (currentParam ++ [c]) params rest
    else if inString then
      empLoop c inString stringChar bracketCount (currentParam ++ [c]) params rest
    else if c == '(' || c == '[' || c == Char.ofNat 123 then
      empLoop c inString stringChar (bracketCount + 1) (currentParam ++ [c]) params rest
    else if c == ')' || c == ']' || c == Char.ofNat 125 then
      if bracketCount - 1 < 0 then
        if jsTrim currentParam ≠ [] then params ++ [jsTrim currentParam] else params
      else empLoop c inString stringChar (bracketCount - 1) (currentParam ++ [c]) params rest
    else if isJsOperator c then
      empLoop c inString stringChar bracketCount (currentParam ++ [c]) params rest
    else if c == ',' && bracketCount == 0 then
      empLoop c inString stringChar bracketCount [] (params ++ [jsTrim currentParam]) rest
    else
      empLoop c inString stringChar bracketCount (currentParam ++ [c]) params rest

/-- The initial whitespace skip of `extractMethodParameters` (lines 651-653):
advance the index while it sits on whitespace, stopping at the end of the
text (expressed as the length of the leading whitespace run of the suffix). -/
def skipWsFrom (text : JStr) (i : Nat) : Nat :=
  i + ((text.drop i).takeWhile jsIsWs).length

/-- Embeds `extractMethodParameters` (src/server.ts lines 642-722): skip
whitespace, require an opening parenthesis, then scan with `empLoop`. -/
def extractMethodParameters (text : JStr) (startPos : Nat) : List JStr :=
  let s := skipWsFrom text startPos
  if s < text.length && text.getD s ' ' == '(' then
    empLoop '(' false ' ' 0 [] [] (text.drop (s + 1))
  else []

/-- Instrumented twin of `empLoop` that also reports whether the scan ended
at an unmatched closing bracket (`true`) or by running out of text, and
the characters consumed strictly before that terminator. -/
def empLoopTrace (prev : Char) (inString : Bool) (stringChar : Char) (bracketCount : Int)
    (currentParam : JStr) (params : List JStr) : JStr → List JStr × Bool × JStr
  | [] => (params, false, [])
  | c :: rest =>
    if (c == '"' || c == '\'') && prev != '\\' then
      if !inString then
        let r := empLoopTrace c true c bracketCount (currentParam ++ [c]) params rest
        (r.1, r.2.1, c :: r.2.2)
      else if c == stringChar then
        let r := empLoopTrace c false stringChar bracketCount (currentParam ++ [c]) params rest
        (r.1, r.2.1, c :: r.2.2)
      else
        let r := empLoopTrace c inString stringChar bracketCount (currentParam ++ [c]) params rest
        (r.1, r.2.1, c :: r.2.2)
    else if inString then
      let r := empLoopTrace c inString stringChar bracketCount (currentParam ++ [c]) params rest
      (r.1, r.2.1, c :: r.2.2)
    else if c == '(' || c == '[' || c == Char.ofNat 123 then
      let r := empLoopTrace c inString stringChar (bracketCount + 1) (currentParam ++ [c]) params rest
      (r.1, r.2.1, c :: r.2.2)
    else if c == ')' || c == ']' || c == Char.ofNat 125 then
      if bracketCount - 1 < 0 then
        ((if jsTrim currentParam ≠ [] then params ++ [jsTrim currentParam] else params), true, [])
      else
        let r := empLoopTrace c inString stringChar (bracketCount - 1) (currentParam ++ [c]) params rest
        (r.1, r.2.1, c :: r.2.2)
    else if isJsOperator c then
      let r := empLoopTrace c inString stringChar bracketCount (currentParam ++ [c]) params rest
      (r.1, r.2.1, c :: r.2.2)
    else if c == ',' && bracketCount == 0 then
      let r := empLoopTrace c inString stringChar bracketCount [] (params ++ [jsTrim currentParam]) rest
      (r.1, r.2.1, c :: r.2.2)
    else
      let r := empLoopTrace c inString stringChar bracketCount (currentParam ++ [c]) params rest
      (r.1, r.2.1, c :: r.2.2)

theorem empLoopTrace_fst (rest : JStr) : ∀ prev inString stringChar bracketCount currentParam params,
    (empLoopTrace prev inString stringChar bracketCount currentParam params rest).1 =
      empLoop prev inString stringChar bracketCount currentParam params rest := by
  induction rest with
  | nil => intro p i sc bc cur ps; rfl
  | cons c rest ih =>
    intro p i sc bc cur ps
    simp only [empLoopTrace, empLoop]
    split_ifs <;> simp [ih]

theorem jsTrim_eq_nil_iff (s : JStr) : jsTrim s = [] ↔ s.all jsIsWs = true := by
  unfold jsTrim
  rw [List.reverse_eq_nil_iff, List.dropWhile_eq_nil_iff, List.all_eq_true]
  constructor
  · intro h x hx
    have hsplit := List.takeWhile_append_dropWhile (p := jsIsWs) (l := s)
    rw [← hsplit] at hx
    rcases List.mem_append.mp hx with htk | hdk
    · exact List.mem_takeWhile_imp htk
    · exact h x (List.mem_reverse.mpr hdk)
  · intro h x hx
    exact h x ((List.dropWhile_sublist _).mem (List.mem_reverse.mp hx))

theorem empLoopTrace_break_nil_iff (rest : JStr) :
    ∀ prev inString stringChar bc cur params,
      (empLoopTrace prev inString stringChar bc cur params rest).2.1 = true →
      ((empLoopTrace prev inString stringChar bc cur params rest).1 = [] ↔
        (params = [] ∧ cur.all jsIsWs = true ∧
          (empLoopTrace prev inString stringChar bc cur params rest).2.2.all jsIsWs = true)) := by
  induction rest with
  | nil =>
    intro p i sc bc cur ps hbr
    simp [empLoopTrace] at hbr
  | cons c rest ih =>
    intro p i sc bc cur ps hbr
    simp only [empLoopTrace] at hbr ⊢
    split_ifs at hbr ⊢ <;>
      first
        | -- ordinary characters: the consumed character moves across the iff
          (rw [ih _ _ _ _ _ _ (by simpa using hbr)]
           simp only [List.all_append, List.all_cons, Bool.and_eq_true]
           tauto)
        | -- a depth-zero comma: both sides become impossible
          (rename_i hcomma
           rw [ih _ _ _ _ _ _ (by simpa using hbr)]
           have hceq : c = ',' := by
             simp only [Bool.and_eq_true, beq_iff_eq] at hcomma
             exact hcomma.1
           subst hceq
           have hcws : jsIsWs ',' = false := by decide
           simp [hcws])
        | -- break with a pending nonblank parameter: both sides false
          (rename_i hne
           have hws : ¬ cur.all jsIsWs = true := fun hc => hne ((jsTrim_eq_nil_iff cur).mpr hc)
           simp [hws])
        | -- break with a blank pending parameter
          (rename_i heq
           have hws := (jsTrim_eq_nil_iff cur).mp (by simpa using heq)
           simp [hws])

/-- C5: the argument counter returns 0 for `()`, 1 for `(a)` and 3 for
`(a, f(b,c), "x,y")`; commas inside nested brackets or string literals
(backslash-escape aware) never split arguments (further concrete cases);
and in general, when the scan ends at the unmatched closing bracket, the
call has zero arguments exactly when every character consumed before that
close is whitespace. -/
theorem c5_argument_counting :
    (extractMethodParameters "()".toList 0).length = 0 ∧
    (extractMethodParameters "(a)".toList 0).length = 1 ∧
    (extractMethodParameters "(a, f(b,c), \"x,y\")".toList 0).length = 3 ∧
    (extractMethodParameters "(f(a,b))".toList 0).length = 1 ∧
    (extractMethodParameters "(\"a,b\")".toList 0).length = 1 ∧
    (extractMethodParameters "(\"a\\\",b\")".toList 0).length = 1 ∧
    (∀ (text : JStr) (startPos : Nat),
      (skipWsFrom text startPos < text.length &&
        text.getD (skipWsFrom text startPos) ' ' == '(') = true →
      (empLoopTrace '(' false ' ' 0 [] []
          (text.drop (skipWsFrom text startPos + 1))).2.1 = true →
      (extractMethodParameters text startPos = [] ↔
        (empLoopTrace '(' false ' ' 0 [] []
          (text.drop (skipWsFrom text startPos + 1))).2.2.all jsIsWs = true)) := by
  refine ⟨by decide, by decide, by decide, by decide, by decide, by decide, ?_⟩
  intro text startPos hguard hbr
  have hext : extractMethodParameters text startPos
      = empLoop '(' false ' ' 0 [] [] (text.drop (skipWsFrom text startPos + 1)) := by
    unfold extractMethodParameters
    rw [if_pos hguard]
  rw [hext, ← empLoopTrace_fst]
  rw [empLoopTrace_break_nil_iff _ _ _ _ _ _ _ hbr]
  simp

/-- Witness for C5: the general zero-argument characterization applied to a
call whose parentheses enclose only blanks. -/
theorem c5_argument_counting_witness :
    extractMethodParameters "(  )".toList 0 = [] ↔
      (empLoopTrace '(' false ' ' 0 [] []
        ("(  )".toList.drop (skipWsFrom "(  )".toList 0 + 1))).2.2.all jsIsWs = true :=
  c5_argument_counting.2.2.2.2.2.2 "(  )".toList 0 (by decide) (by decide)

/-- A filesystem path, modelled as its list of segments.  `path.join`
appends segments (dropping empty ones), `path.dirname` drops the last. -/
abbrev FsPath := List JStr

mutual
/-- A filesystem object: a regular file with its text content, or a
directory.  `readable = false` marks a directory on which `readdirSync`
throws (e.g. permission denied); symbolic links are not modelled. -/
inductive FsObj where
  | file (content : JStr)
  | dir (readable : Bool) (entries : FsEntries)

/-- Ordered directory entries: (name, object) pairs in listing order. -/
inductive FsEntries where
  | nil
  | cons (name : JStr) (obj : FsObj) (rest : FsEntries)
end

def FsEntries.lookup : FsEntries → JStr → Option FsObj
  | .nil, _ => none
  | .cons n o rest, name => if n = name then some o else rest.lookup name

/-- Resolve a path from a root object, one segment at a time. -/
def FsObj.resolve : FsObj → FsPath → Option FsObj
  | o, [] => some o
  | .file _, _ :: _ => none
  | .dir _ es, seg :: rest =>
    match es.lookup seg with
    | some o => o.resolve rest
    | none => none

/-- `fs.existsSync`. -/
def existsSync (fsys : FsObj) (p : FsPath) : Bool := (fsys.resolve p).isSome

/-- `fs.readFileSync`: content of a regular file; reading a missing path
or a directory throws. -/
def readFileSync (fsys : FsObj) (p : FsPath) : Except Unit JStr :=
  match fsys.resolve p with
  | some (.file content) => .ok content
  | _ => .error ()

/-- `String.prototype.toLocaleLowerCase`, restricted to ASCII case folding. -/
def jsToLower (s : JStr) : JStr := s.map Char.toLower

/-- `files.find(file => file.toLocaleLowerCase() === fileName.toLocaleLowerCase())`
(src/server.ts line 109): the first entry whose name matches case-insensitively. -/
def findDirectMatch : FsEntries → JStr → Option JStr
  | .nil, _ => none
  | .cons n _ rest, fileName =>
    if jsToLower n = jsToLower fileName then some n else findDirectMatch rest fileName

mutual
/-- Body of `findFileRecursive` (src/server.ts lines 100-130) on a resolved
object: `readdirSync` throws on an unreadable directory or a regular file;
otherwise first try the direct case-insensitive match in this directory,
then recurse into each subdirectory in listing order. -/
def findFileRecursiveObj : FsObj → FsPath → JStr → Except Unit (Option FsPath)
  | .file _, _, _ => .error ()
  | .dir false _, _, _ => .error ()
  | .dir true es, dirPath, fileName =>
    match findDirectMatch es fileName with
    | some n => .ok (some (dirPath ++ [n]))
    | none => findInSubdirs es dirPath fileName

/-- The second loop of `findFileRecursive`: `statSync` each entry and
recurse into directories, returning the first hit. -/
def findInSubdirs : FsEntries → FsPath → JStr → Except Unit (Option FsPath)
  | .nil, _, _ => .ok none
  | .cons n o rest, dirPath, fileName =>
    match o with
    | .file _ => findInSubdirs rest dirPath fileName
    | .dir r es =>
      match findFileRecursiveObj (.dir r es) (dirPath ++ [n]) fileName with
      | .error e => .error e
      | .ok (some p) => .ok (some p)
      | .ok none => findInSubdirs rest dirPath fileName
end

/-- Embeds `findFileRecursive(dir, fileName)`: a missing directory returns
null (line 101); otherwise the recursive search runs on the resolved object. -/
def findFileRecursive (fsys : FsObj) (dir : FsPath) (fileName : JStr) :
    Except Unit (Option FsPath) :=
  match fsys.resolve dir with
  | none => .ok none
  | some o => findFileRecursiveObj o dir fileName

/-- `String.prototype.substring` with JavaScript clamp-and-swap semantics. -/
def jsSubstring (s : JStr) (a b : Int) : JStr :=
  let la := min (max a 0) (s.length : Int)
  let lb := min (max b 0) (s.length : Int)
  ((s.take (max la lb).toNat).drop (min la lb).toNat)

def hasSubAt (s sub : JStr) (i : Nat) : Bool := (s.drop i).take sub.length == sub

/-- `String.prototype.indexOf` for a substring needle (as an option). -/
def firstSubIdx (s sub : JStr) : Option Nat :=
  (List.range (s.length + 1)).find? (fun i => hasSubAt s sub i)

/-- `String.prototype.indexOf`: -1 when absent. -/
def jsIndexOfSub (s sub : JStr) : Int :=
  match firstSubIdx s sub with
  | some i => (i : Int)
  | none => -1

/-- The `\w` word-character class of JavaScript regexes. -/
def isWordChar (c : Char) : Bool := c.isAlpha || c.isDigit || c = '_'

def isWordCharAt (line : JStr) (i : Nat) : Bool :=
  i < line.length && isWordChar (line.getD i ' ')

/-- A regex `\b` boundary at position `i`: word-ness differs across it. -/
def isBoundary (line : JStr) (i : Nat) : Bool :=
  (if i = 0 then false else isWordCharAt line (i - 1)) != isWordCharAt line i

def wsRunAt (line : JStr) (i : Nat) : Nat := ((line.drop i).takeWhile jsIsWs).length

/-- One anchored attempt of the regex `\bclass\s+«simple»\b` at position `i`. -/
def matchClassAt (line simple : JStr) (i : Nat) : Bool :=
  isBoundary line i &&
  hasSubAt line "class".toList i &&
  (List.range (wsRunAt line (i + 5))).any (fun k =>
    hasSubAt line simple (i + 5 + (k + 1)) &&
    isBoundary line (i + 5 + (k + 1) + simple.length))

/-- `line.match(new RegExp('\\bclass\\s+' + simple + '\\b'))` is non-null. -/
def matchesClassPattern (line simple : JStr) : Bool :=
  (List.range (line.length + 1)).any (fun i => matchClassAt line simple i)

/-- Location result: file path, 0-based line, and the character columns the
server computes on the trimmed line (as JavaScript numbers, so `Int`). -/
structure JLocation where
  path : FsPath
  line : Nat
  startCol : Int
  endCol : Int
deriving DecidableEq, Repr

/-- The `package` declaration tracking of the per-file scan (src/server.ts
lines 174-177): on a trimmed line starting with `package `, replace the
remembered declared package with `line.substring(8, line.length - 1).trim()`. -/
def pkgUpdate (dp : JStr) (l : JStr) : JStr :=
  if ("package ".toList).isPrefixOf (jsTrim l)
  then jsTrim (jsSubstring (jsTrim l) 8 (((jsTrim l).length : Int) - 1))
  else dp

/-- The per-file scan of `findJavaDefinition` (src/server.ts lines 163-216):
remember the last `package` declaration seen (stripping the trailing
semicolon with `substring(8, length - 1)`), and return a Location on the
first class-pattern line whose declared package equals the expected one
(when a package prefix was given); on mismatch keep scanning. -/
def scanClassLines (filePath : FsPath) (simpleName expectedPackage : JStr)
    (usePkg : Bool) : List JStr → JStr → Nat → Option JLocation
  | [], _, _ => none
  | l :: rest, declaredPackage, i =>
    let line := jsTrim l
    let declaredPackage' := pkgUpdate declaredPackage l
    if matchesClassPattern line simpleName then
      if usePkg then
        if declaredPackage' = expectedPackage then
          some ⟨filePath, i, jsIndexOfSub line "class".toList, (line.length : Int)⟩
        else scanClassLines filePath simpleName expectedPackage usePkg rest declaredPackage' (i + 1)
      else
        some ⟨filePath, i, jsIndexOfSub line "class".toList, (line.length : Int)⟩
    else scanClassLines filePath simpleName expectedPackage usePkg rest declaredPackage' (i + 1)

/-- `className.split('.').pop()` (line 137). -/
def simpleClassNameOf (className : JStr) : JStr := (splitOnChar '.' className).getLastD []

/-- `className.split('.').slice(0, -1)` (line 138). -/
def packageSegsOf (className : JStr) : List JStr := (splitOnChar '.' className).dropLast

/-- `className.split('.').slice(0, -1).join('/')` (line 138). -/
def packagePathOf (className : JStr) : JStr := joinWith ['/'] (packageSegsOf className)

/-- `packagePath.replace(/\//g, '.')` (line 187). -/
def expectedPackageOf (className : JStr) : JStr :=
  (packagePathOf className).map (fun c => if c = '/' then '.' else c)

/-- The four candidate search paths per source root (lines 145-154). -/
def possibleSearchPaths (srcPath : FsPath) (pkgSegs : List JStr) (usePkg : Bool) :
    List FsPath :=
  [ (if usePkg then srcPath ++ pkgSegs.filter (fun s => s ≠ []) else srcPath),
    srcPath,
    srcPath ++ ["java".toList],
    srcPath.dropLast ]

/-- The inner loop of `findJavaDefinition` over the candidate search paths
(lines 157-219): check existence, search recursively for the class file,
read it and scan; on a throw the exception propagates. -/
def tryClassSearchPaths (fsys : FsObj) (classFile simpleName expectedPackage : JStr)
    (usePkg : Bool) : List FsPath → Except Unit (Option JLocation)
  | [] => .ok none
  | sp :: rest =>
    if existsSync fsys sp then
      match findFileRecursive fsys sp classFile with
      | .error e => .error e
      | .ok none => tryClassSearchPaths fsys classFile simpleName expectedPackage usePkg rest
      | .ok (some filePath) =>
        match readFileSync fsys filePath with
        | .error e => .error e
        | .ok content =>
          match scanClassLines filePath simpleName expectedPackage usePkg
              (splitOnChar '\n' content) [] 0 with
          | some loc => .ok (some loc)
          | none => tryClassSearchPaths fsys classFile simpleName expectedPackage usePkg rest
    else tryClassSearchPaths fsys classFile simpleName expectedPackage usePkg rest

/-- The outer loop of `findJavaDefinition` over the source roots (line 143). -/
def tryClassRoots (fsys : FsObj) (classFile simpleName expectedPackage : JStr)
    (pkgSegs : List JStr) (usePkg : Bool) : List FsPath → Except Unit (Option JLocation)
  | [] => .ok none
  | srcPath :: rest =>
    match tryClassSearchPaths fsys classFile simpleName expectedPackage usePkg
        (possibleSearchPaths srcPath pkgSegs usePkg) with
    | .error e => .error e
    | .ok (some loc) => .ok (some loc)
    | .ok none => tryClassRoots fsys classFile simpleName expectedPackage pkgSegs usePkg rest

/-- Embeds `findJavaDefinition` (src/server.ts lines 133-224). -/
def findJavaDefinition (fsys : FsObj) (javaSourcePaths : List FsPath) (className : JStr) :
    Except Unit (Option JLocation) :=
  tryClassRoots fsys (simpleClassNameOf className ++ ".java".toList)
    (simpleClassNameOf className) (expectedPackageOf className)
    (packageSegsOf className) (packagePathOf className ≠ []) javaSourcePaths

/-- Build directory entries from a list (test/witness helper). -/
def FsEntries.ofList : List (JStr × FsObj) → FsEntries
  | [] => .nil
  | (n, o) :: rest => .cons n o (FsEntries.ofList rest)

/-- The running `declaredPackage` value of the per-file scan after
processing a list of lines, starting from `dp`. -/
def packageFold (dp : JStr) : List JStr → JStr
  | [] => dp
  | l :: rest => packageFold (pkgUpdate dp l) rest

theorem scanClassLines_sound (filePath : FsPath) (simpleName expectedPackage : JStr)
    (usePkg : Bool) :
    ∀ (lines : List JStr) (dp : JStr) (i : Nat) (loc : JLocation),
      scanClassLines filePath simpleName expectedPackage usePkg lines dp i = some loc →
      ∃ t, t < lines.length ∧ loc.line = i + t ∧ loc.path = filePath ∧
        matchesClassPattern (jsTrim (lines.getD t [])) simpleName = true ∧
        (usePkg = true → packageFold dp (lines.take (t + 1)) = expectedPackage) ∧
        (∀ t' < t, matchesClassPattern (jsTrim (lines.getD t' [])) simpleName = true →
          usePkg = true ∧ packageFold dp (lines.take (t' + 1)) ≠ expectedPackage) := by
  intro lines
  induction lines with
  | nil => intro dp i loc h; simp [scanClassLines] at h
  | cons l rest ih =>
    intro dp i loc h
    simp only [scanClassLines] at h
    split_ifs at h with hm hu he
    · -- class match, package required and equal: the returned line
      refine ⟨0, by simp, ?_, ?_, ?_, ?_, ?_⟩
      · obtain rfl := (Option.some.injEq _ _).mp h
        simp
      · obtain rfl := (Option.some.injEq _ _).mp h
        rfl
      · simpa using hm
      · intro _
        simpa [packageFold] using he
      · intro t' ht'; omega
    · -- class match but package mismatch: the scan continues
      obtain ⟨t, htlen, hloc, hpath, hmt, hpkg, hskip⟩ := ih _ (i + 1) loc h
      refine ⟨t + 1, by simpa using htlen, by omega, hpath, by simpa using hmt, ?_, ?_⟩
      · intro hu2
        have := hpkg hu2
        simpa [packageFold] using this
      · intro t' ht' hmatch
        rcases t' with - | t''
        · refine ⟨hu, ?_⟩
          simpa [packageFold] using he
        · have := hskip t'' (by omega) (by simpa using hmatch)
          refine ⟨this.1, ?_⟩
          simpa [packageFold] using this.2
    · -- class match, no package prefix supplied: returned immediately
      refine ⟨0, by simp, ?_, ?_, ?_, ?_, ?_⟩
      · obtain rfl := (Option.some.injEq _ _).mp h
        simp
      · obtain rfl := (Option.some.injEq _ _).mp h
        rfl
      · simpa using hm
      · intro hcon; exact absurd hcon hu
      · intro t' ht'; omega
    · -- no class match on this line: the scan continues
      obtain ⟨t, htlen, hloc, hpath, hmt, hpkg, hskip⟩ := ih _ (i + 1) loc h
      refine ⟨t + 1, by simpa using htlen, by omega, hpath, by simpa using hmt, ?_, ?_⟩
      · intro hu2
        have := hpkg hu2
        simpa [packageFold] using this
      · intro t' ht' hmatch
        rcases t' with - | t''
        · exact absurd (by simpa using hmatch) hm
        · have := hskip t'' (by omega) (by simpa using hmatch)
          refine ⟨this.1, ?_⟩
          simpa [packageFold] using this.2

theorem tryClassSearchPaths_sound (fsys : FsObj) (classFile simpleName expectedPackage : JStr)
    (usePkg : Bool) :
    ∀ (sps : List FsPath) (loc : JLocation),
      tryClassSearchPaths fsys classFile simpleName expectedPackage usePkg sps = .ok (some loc) →
      ∃ filePath content,
        readFileSync fsys filePath = .ok content ∧
        scanClassLines filePath simpleName expectedPackage usePkg
          (splitOnChar '\n' content) [] 0 = some loc := by
  intro sps
  induction sps with
  | nil => intro loc h; simp [tryClassSearchPaths] at h
  | cons sp rest ih =>
    intro loc h
    simp only [tryClassSearchPaths] at h
    split_ifs at h with hex
    · rcases hf : findFileRecursive fsys sp classFile with e | ofp
      · simp only [hf] at h
        exact Except.noConfusion h
      · rcases ofp with - | fp
        · simp only [hf] at h
          exact ih loc h
        · simp only [hf] at h
          rcases hr : readFileSync fsys fp with e | content
          · simp only [hr] at h
            exact Except.noConfusion h
          · simp only [hr] at h
            rcases hsc : scanClassLines fp simpleName expectedPackage usePkg
                (splitOnChar '\n' content) [] 0 with - | loc'
            · simp only [hsc] at h
              exact ih loc h
            · simp only [hsc] at h
              obtain rfl : loc' = loc := by simpa using h
              exact ⟨fp, content, hr, hsc⟩
    · exact ih loc h

theorem tryClassRoots_sound (fsys : FsObj) (classFile simpleName expectedPackage : JStr)
    (pkgSegs : List JStr) (usePkg : Bool) :
    ∀ (roots : List FsPath) (loc : JLocation),
      tryClassRoots fsys classFile simpleName expectedPackage pkgSegs usePkg roots
        = .ok (some loc) →
      ∃ filePath content,
        readFileSync fsys filePath = .ok content ∧
        scanClassLines filePath simpleName expectedPackage usePkg
          (splitOnChar '\n' content) [] 0 = some loc := by
  intro roots
  induction roots with
  | nil => intro loc h; simp [tryClassRoots] at h
  | cons r rest ih =>
    intro loc h
    simp only [tryClassRoots] at h
    rcases hsp : tryClassSearchPaths fsys classFile simpleName expectedPackage usePkg
        (possibleSearchPaths r pkgSegs usePkg) with e | oloc
    · simp only [hsp] at h
      exact Except.noConfusion h
    · rcases oloc with - | loc'
      · simp only [hsp] at h
        exact ih loc h
      · simp only [hsp] at h
        obtain rfl : loc' = loc := by simpa using h
        exact tryClassSearchPaths_sound fsys classFile simpleName expectedPackage usePkg _ _ hsp

theorem existsSync_of_findFileRecursive_some (fsys : FsObj) (p : FsPath) (f : JStr)
    (fp : FsPath) (h : findFileRecursive fsys p f = .ok (some fp)) :
    existsSync fsys p = true := by
  unfold findFileRecursive at h
  unfold existsSync
  rcases hr : fsys.resolve p with - | o
  · rw [hr] at h; cases h
  · simp [hr]

/-- C3: every Location the workspace tier returns points into a file whose
scan found a class-declaration line, with the declared package (tracked
across the lines up to it) equal to the expected package exactly whenever
the query carried a package prefix, and with every earlier class-pattern
line rejected for package mismatch (search continued past it); and
conversely, when every earlier source root yields nothing and the direct
package path of root `r` holds the class file whose scan succeeds, that
Location is returned. -/
theorem c3_workspace_class_resolution (fsys : FsObj) (roots : List FsPath) (className : JStr) :
    (∀ loc, findJavaDefinition fsys roots className = .ok (some loc) →
      ∃ content, readFileSync fsys loc.path = .ok content ∧
        ∃ t, loc.line = t ∧ t < (splitOnChar '\n' content).length ∧
          matchesClassPattern (jsTrim ((splitOnChar '\n' content).getD t []))
            (simpleClassNameOf className) = true ∧
          (packagePathOf className ≠ [] →
            packageFold [] ((splitOnChar '\n' content).take (t + 1))
              = expectedPackageOf className) ∧
          (∀ t' < t, matchesClassPattern (jsTrim ((splitOnChar '\n' content).getD t' []))
              (simpleClassNameOf className) = true →
            packageFold [] ((splitOnChar '\n' content).take (t' + 1))
              ≠ expectedPackageOf className))
    ∧
    (∀ (pre post : List FsPath) (r fp : FsPath) (content : JStr) (loc : JLocation),
      roots = pre ++ r :: post →
      (∀ r' ∈ pre, tryClassSearchPaths fsys (simpleClassNameOf className ++ ".java".toList)
          (simpleClassNameOf className) (expectedPackageOf className)
          (packagePathOf className ≠ [])
          (possibleSearchPaths r' (packageSegsOf className) (packagePathOf className ≠ []))
          = .ok none) →
      findFileRecursive fsys
          (if (packagePathOf className ≠ [] : Bool)
           then r ++ (packageSegsOf className).filter (fun s => s ≠ [])
           else r)
          (simpleClassNameOf className ++ ".java".toList) = .ok (some fp) →
      readFileSync fsys fp = .ok content →
      scanClassLines fp (simpleClassNameOf className) (expectedPackageOf className)
          (packagePathOf className ≠ []) (splitOnChar '\n' content) [] 0 = some loc →
      findJavaDefinition fsys roots className = .ok (some loc)) := by
  constructor
  · intro loc h
    obtain ⟨fp, content, hr, hsc⟩ :=
      tryClassRoots_sound fsys _ _ _ _ _ roots loc h
    obtain ⟨t, htlen, hline, hpath, hmt, hpkg, hskip⟩ :=
      scanClassLines_sound fp (simpleClassNameOf className) (expectedPackageOf className)
        (packagePathOf className ≠ []) (splitOnChar '\n' content) [] 0 loc hsc
    subst hpath
    refine ⟨content, hr, t, by omega, htlen, hmt, ?_, ?_⟩
    · intro hne
      exact hpkg (by simpa using hne)
    · intro t' ht' hmt'
      exact (hskip t' ht' hmt').2
  · intro pre post r fp content loc hroots hpre hfind hread hscan
    subst hroots
    unfold findJavaDefinition
    induction pre with
    | nil =>
      simp only [List.nil_append, tryClassRoots]
      have hex := existsSync_of_findFileRecursive_some fsys _ _ fp hfind
      have hsp : tryClassSearchPaths fsys (simpleClassNameOf className ++ ".java".toList)
          (simpleClassNameOf className) (expectedPackageOf className)
          (packagePathOf className ≠ [])
          (possibleSearchPaths r (packageSegsOf className) (packagePathOf className ≠ []))
          = .ok (some loc) := by
        simp only [possibleSearchPaths, tryClassSearchPaths, hex, if_true, hfind, hread, hscan]
      rw [hsp]
    | cons r' pre' ih =>
      simp only [List.cons_append, tryClassRoots]
      rw [hpre r' (by simp)]
      exact ih (fun x hx => hpre x (by simp [hx]))

/-- One-root workspace holding `com/A.java` with a matching package
declaration (C3 witness input). -/
def fsC3 : FsObj :=
  FsObj.dir true (FsEntries.ofList
    [("ws".toList, FsObj.dir true (FsEntries.ofList
      [("src".toList, FsObj.dir true (FsEntries.ofList
        [("com".toList, FsObj.dir true (FsEntries.ofList
          [("A.java".toList, FsObj.file "package com;\nclass A".toList)]))]))]))])

/-- Witness for C3: the completeness direction applied to `fsC3`. -/
theorem c3_workspace_class_resolution_witness :
    findJavaDefinition fsC3 [["ws".toList, "src".toList]] "com.A".toList
      = .ok (some ⟨["ws".toList, "src".toList, "com".toList, "A.java".toList], 1, 0, 7⟩) :=
  (c3_workspace_class_resolution fsC3 [["ws".toList, "src".toList]] "com.A".toList).2
    [] [] ["ws".toList, "src".toList]
    ["ws".toList, "src".toList, "com".toList, "A.java".toList]
    "package com;\nclass A".toList
    ⟨["ws".toList, "src".toList, "com".toList, "A.java".toList], 1, 0, 7⟩
    rfl (by simp) (by decide) (by decide) (by decide)

theorem findDirectMatch_lower : ∀ (es : FsEntries) (fn n : JStr),
    findDirectMatch es fn = some n → jsToLower n = jsToLower fn
  | FsEntries.nil, fn, n => by simp [findDirectMatch]
  | FsEntries.cons m o rest, fn, n => fun h => by
      simp only [findDirectMatch] at h
      split_ifs at h with hm
      · obtain rfl : m = n := by simpa using h
        exact hm
      · exact findDirectMatch_lower rest fn n h

mutual
theorem findFileRecursiveObj_lower : ∀ (o : FsObj) (dir : FsPath) (fn : JStr) (p : FsPath),
    findFileRecursiveObj o dir fn = Except.ok (some p) →
    ∃ d n, p = d ++ [n] ∧ jsToLower n = jsToLower fn
  | FsObj.file c, dir, fn, p => fun h => by simp [findFileRecursiveObj] at h
  | FsObj.dir false es, dir, fn, p => fun h => by simp [findFileRecursiveObj] at h
  | FsObj.dir true es, dir, fn, p => fun h => by
      simp only [findFileRecursiveObj] at h
      rcases hd : findDirectMatch es fn with - | n
      · simp only [hd] at h
        exact findInSubdirs_lower es dir fn p h
      · simp only [hd] at h
        obtain rfl : dir ++ [n] = p := by simpa using h
        exact ⟨dir, n, rfl, findDirectMatch_lower es fn n hd⟩

theorem findInSubdirs_lower : ∀ (es : FsEntries) (dir : FsPath) (fn : JStr) (p : FsPath),
    findInSubdirs es dir fn = Except.ok (some p) →
    ∃ d n, p = d ++ [n] ∧ jsToLower n = jsToLower fn
  | FsEntries.nil, dir, fn, p => fun h => by simp [findInSubdirs] at h
  | FsEntries.cons n (FsObj.file c) rest, dir, fn, p => fun h => by
      simp only [findInSubdirs] at h
      exact findInSubdirs_lower rest dir fn p h
  | FsEntries.cons n (FsObj.dir r es2) rest, dir, fn, p => fun h => by
      simp only [findInSubdirs] at h
      rcases hf : findFileRecursiveObj (FsObj.dir r es2) (dir ++ [n]) fn with e | op
      · simp only [hf] at h
        exact Except.noConfusion h
      · rcases op with - | p'
        · simp only [hf] at h
          exact findInSubdirs_lower rest dir fn p h
        · simp only [hf] at h
          obtain rfl : p' = p := by simpa using h
          exact findFileRecursiveObj_lower (FsObj.dir r es2) (dir ++ [n]) fn _ hf
end

theorem findFileRecursive_lower (fsys : FsObj) (dir : FsPath) (fn : JStr) (p : FsPath)
    (h : findFileRecursive fsys dir fn = .ok (some p)) :
    ∃ d n, p = d ++ [n] ∧ jsToLower n = jsToLower fn := by
  unfold findFileRecursive at h
  rcases hr : fsys.resolve dir with - | o
  · simp only [hr] at h
    exact Option.noConfusion (Except.ok.inj h)
  · simp only [hr] at h
    exact findFileRecursiveObj_lower o dir fn p h

/-- One-root workspace whose class file is named in lower case
(C10 concrete input). -/
def fsC10 : FsObj :=
  FsObj.dir true (FsEntries.ofList
    [("root".toList, FsObj.dir true (FsEntries.ofList
      [("foo.java".toList, FsObj.file "class Foo".toList)]))])

/-- C10: the workspace file search compares file names case-insensitively:
every hit's basename equals the requested name up to lower-casing; and
concretely a search for `Foo.java` is satisfied by a file named
`foo.java` (a basename differing in letter case), which the definition
lookup then returns. -/
theorem c10_case_insensitive_file_match :
    (∀ (fsys : FsObj) (dir : FsPath) (fn : JStr) (p : FsPath),
      findFileRecursive fsys dir fn = .ok (some p) →
      ∃ d n, p = d ++ [n] ∧ jsToLower n = jsToLower fn) ∧
    findFileRecursive fsC10 ["root".toList] "Foo.java".toList
      = .ok (some ["root".toList, "foo.java".toList]) ∧
    "foo.java".toList ≠ "Foo.java".toList ∧
    findJavaDefinition fsC10 [["root".toList]] "Foo".toList
      = .ok (some ⟨["root".toList, "foo.java".toList], 0, 0, 9⟩) :=
  ⟨findFileRecursive_lower, by decide, by decide, by decide⟩

/-- Witness for C10: the general case-insensitivity conclusion applied to
the concrete lower-cased hit. -/
theorem c10_case_insensitive_file_match_witness :
    ∃ d n, (["root".toList, "foo.java".toList] : FsPath) = d ++ [n] ∧
      jsToLower n = jsToLower "Foo.java".toList :=
  c10_case_insensitive_file_match.1 fsC10 ["root".toList] "Foo.java".toList
    ["root".toList, "foo.java".toList] (by decide)

/-- Number of occurrences of a character (`(line.match(/x/g) || []).length`). -/
def countCh (c : Char) (s : JStr) : Nat := (s.filter (fun d => d == c)).length

/-- One anchored attempt of the regex `\b«method»\s*\(` at position `i`:
a word boundary, the method name, a whitespace run, then `(`. -/
def matchMethodAt (line methodName : JStr) (i : Nat) : Bool :=
  isBoundary line i &&
  hasSubAt line methodName i &&
  line.getD (i + methodName.length + wsRunAt line (i + methodName.length)) ' ' == '('

/-- `line.match(new RegExp('\\b' + methodName + '\\s*\\('))` is non-null. -/
def matchesMethodPattern (line methodName : JStr) : Bool :=
  (List.range (line.length + 1)).any (fun i => matchMethodAt line methodName i)

/-- The multi-line signature accumulation of `findJavaMethodDefinition`
(lines 288-291): append following trimmed lines, separated by a space,
until the accumulated text contains a closing parenthesis. -/
def extendUntilParen (cur : JStr) : List JStr → JStr
  | [] => cur
  | l :: rest => if cur.contains ')' then cur else extendUntilParen (cur ++ ' ' :: jsTrim l) rest

/-- `methodLine.substring(methodLine.indexOf('(') + 1, methodLine.indexOf(')'))`
(line 294). -/
def paramStringOf (methodLine : JStr) : JStr :=
  jsSubstring methodLine (jsIndexOfSub methodLine "(".toList + 1)
    (jsIndexOfSub methodLine ")".toList)

/-- `paramString.trim() ? paramString.split(',') : []` then `.length`
(lines 295-297). -/
def paramCountOf (methodLine : JStr) : Nat :=
  if jsTrim (paramStringOf methodLine) = []
  then 0
  else (splitOnChar ',' (paramStringOf methodLine)).length

/-- The `bestMatch` record of `findJavaMethodDefinition` (line 258). -/
structure MethodMatch where
  line : Nat
  paramCount : Nat
deriving DecidableEq, Repr

/-- `Math.abs(a - b)` on JavaScript numbers holding naturals. -/
def natDist (a b : Nat) : Nat := ((a : Int) - (b : Int)).natAbs

/-- The `bestMatch` update condition (line 300): no best yet, or strictly
smaller absolute parameter-count difference. -/
def isBetter (pc parameterCount : Nat) : Option MethodMatch → Bool
  | none => true
  | some b => natDist pc parameterCount < natDist b.paramCount parameterCount

/-- The Location built for a method hit on line `i`: columns from
`line.indexOf(methodName)` on the trimmed line (lines 310-331). -/
def methodLocAt (filePath : FsPath) (allLines : List JStr) (methodName : JStr)
    (i : Nat) : JLocation :=
  ⟨filePath, i, jsIndexOfSub (jsTrim (allLines.getD i [])) methodName,
    jsIndexOfSub (jsTrim (allLines.getD i [])) methodName + methodName.length⟩

/-- The post-loop `bestMatch` return (lines 322-332). -/
def finishMethodBest (filePath : FsPath) (allLines : List JStr) (methodName : JStr) :
    Option MethodMatch → Option JLocation
  | none => none
  | some b => some (methodLocAt filePath allLines methodName b.line)

/-- The per-file scan of `findJavaMethodDefinition` (src/server.ts lines
253-332): enter the class on its declaration line (skipping bracket
counting there), leave when the running brace count goes negative, and on
each `\bname\s*\(` line compute the parameter count of the (possibly
multi-line) signature; an exact parameter-count match returns immediately,
otherwise the strictly-closest match seen first is remembered. -/
def scanMethodAux (filePath : FsPath) (allLines : List JStr)
    (simpleName methodName : JStr) (parameterCount : Nat) :
    List JStr → Nat → Bool → Int → Option MethodMatch → Option JLocation
  | [], _, _, _, best => finishMethodBest filePath allLines methodName best
  | l :: rest, i, inClass, bc, best =>
    let line := jsTrim l
    if matchesClassPattern line simpleName then
      scanMethodAux filePath allLines simpleName methodName parameterCount rest (i + 1) true bc best
    else if !inClass then
      scanMethodAux filePath allLines simpleName methodName parameterCount rest (i + 1) inClass bc best
    else
      let bc' := bc + (countCh '\x7b' line : Int) - (countCh '\x7d' line : Int)
      if bc' < 0 then finishMethodBest filePath allLines methodName best
      else if matchesMethodPattern line methodName then
        let pc := paramCountOf (extendUntilParen line rest)
        let best' := if isBetter pc parameterCount best then some ⟨i, pc⟩ else best
        if pc = parameterCount then
          some ⟨filePath, i, jsIndexOfSub line methodName,
                jsIndexOfSub line methodName + methodName.length⟩
        else scanMethodAux filePath allLines simpleName methodName parameterCount rest (i + 1) true bc' best'
      else scanMethodAux filePath allLines simpleName methodName parameterCount rest (i + 1) true bc' best

/-- Embeds the method search within one file's lines. -/
def findJavaMethodInLines (filePath : FsPath) (lines : List JStr)
    (simpleName methodName : JStr) (parameterCount : Nat) : Option JLocation :=
  scanMethodAux filePath lines simpleName methodName parameterCount lines 0 false 0 none

/-- The method matches the scan loop would consider, in scan order,
with their computed parameter counts (instrumentation of `scanMethodAux`;
independent of the requested parameter count). -/
def collectMethodMatches (simpleName methodName : JStr) :
    List JStr → Nat → Bool → Int → List MethodMatch
  | [], _, _, _ => []
  | l :: rest, i, inClass, bc =>
    let line := jsTrim l
    if matchesClassPattern line simpleName then
      collectMethodMatches simpleName methodName rest (i + 1) true bc
    else if !inClass then
      collectMethodMatches simpleName methodName rest (i + 1) inClass bc
    else
      let bc' := bc + (countCh '\x7b' line : Int) - (countCh '\x7d' line : Int)
      if bc' < 0 then []
      else if matchesMethodPattern line methodName then
        ⟨i, paramCountOf (extendUntilParen line rest)⟩ ::
          collectMethodMatches simpleName methodName rest (i + 1) true bc'
      else collectMethodMatches simpleName methodName rest (i + 1) true bc'

/-- The selection the scan applies to its match list: exact match returns
at once, otherwise the best-so-far is updated on strict improvement. -/
def pickFromMatches (filePath : FsPath) (allLines : List JStr) (methodName : JStr)
    (parameterCount : Nat) : Option MethodMatch → List MethodMatch → Option JLocation
  | best, [] => finishMethodBest filePath allLines methodName best
  | best, m :: ms =>
    let best' := if isBetter m.paramCount parameterCount best then some m else best
    if m.paramCount = parameterCount then
      some (methodLocAt filePath allLines methodName m.line)
    else pickFromMatches filePath allLines methodName parameterCount best' ms

/-- First-strict-minimum fold over the match list (the pure selection). -/
def selectStrictMin (parameterCount : Nat) :
    Option MethodMatch → List MethodMatch → Option MethodMatch
  | best, [] => best
  | best, m :: ms =>
    selectStrictMin parameterCount
      (if isBetter m.paramCount parameterCount best then some m else best) ms

theorem finishMethodBest_eq_map (filePath : FsPath) (allLines : List JStr)
    (methodName : JStr) (best : Option MethodMatch) :
    finishMethodBest filePath allLines methodName best
      = best.map (fun m => methodLocAt filePath allLines methodName m.line) := by
  cases best <;> rfl

theorem scanMethodAux_eq_pick (filePath : FsPath) (allLines : List JStr)
    (simpleName methodName : JStr) (parameterCount : Nat) :
    ∀ (rest : List JStr) (i : Nat) (inClass : Bool) (bc : Int) (best : Option MethodMatch),
      rest = allLines.drop i →
      scanMethodAux filePath allLines simpleName methodName parameterCount rest i inClass bc best
        = pickFromMatches filePath allLines methodName parameterCount best
            (collectMethodMatches simpleName methodName rest i inClass bc) := by
  intro rest
  induction rest with
  | nil =>
    intro i ic bc best hinv
    simp [scanMethodAux, collectMethodMatches, pickFromMatches]
  | cons l rest ih =>
    intro i ic bc best hinv
    have hrest : rest = allLines.drop (i + 1) := by
      have htl := congrArg List.tail hinv
      simpa [List.tail_drop] using htl
    have hgetD : allLines.getD i [] = l := by
      have hh : (allLines.drop i).head? = some l := by rw [← hinv]; rfl
      rw [List.head?_drop] at hh
      simp [List.getD_eq_getElem?_getD, hh]
    by_cases h1 : matchesClassPattern (jsTrim l) simpleName = true
    · simp only [scanMethodAux, collectMethodMatches, h1, if_true]
      exact ih (i + 1) true bc best hrest
    · cases ic with
      | false =>
        simp only [scanMethodAux, collectMethodMatches, h1, if_false, Bool.not_false, if_true]
        exact ih (i + 1) false bc best hrest
      | true =>
        by_cases h3 : bc + (countCh '\x7b' (jsTrim l) : Int) - (countCh '\x7d' (jsTrim l) : Int) < 0
        · simp only [scanMethodAux, collectMethodMatches, h1, if_false, Bool.not_true,
            Bool.false_eq_true, h3, if_true, pickFromMatches]
        · by_cases h4 : matchesMethodPattern (jsTrim l) methodName = true
          · by_cases h5 : paramCountOf (extendUntilParen (jsTrim l) rest) = parameterCount
            · simp only [scanMethodAux, collectMethodMatches, h1, if_false, Bool.not_true,
                Bool.false_eq_true, h3, h4, if_true, h5, pickFromMatches, methodLocAt, hgetD]
            · simp only [scanMethodAux, collectMethodMatches, h1, if_false, Bool.not_true,
                Bool.false_eq_true, h3, h4, if_true, h5, pickFromMatches]
              exact ih (i + 1) true _ _ hrest
          · simp only [scanMethodAux, collectMethodMatches, h1, if_false, Bool.not_true,
              Bool.false_eq_true, h3, h4, if_true]
            exact ih (i + 1) true _ best hrest

theorem selectStrictMin_zero (k : Nat) (m : MethodMatch)
    (h : natDist m.paramCount k = 0) :
    ∀ ms, selectStrictMin k (some m) ms = some m
  | [] => rfl
  | m2 :: ms => by
    have hbet : isBetter m2.paramCount k (some m) = false := by
      simp [isBetter, h]
    simp only [selectStrictMin, hbet, if_false]
    exact selectStrictMin_zero k m h ms

theorem pickFromMatches_eq_select (filePath : FsPath) (allLines : List JStr)
    (methodName : JStr) (k : Nat) :
    ∀ (ms : List MethodMatch) (best : Option MethodMatch),
      (∀ b, best = some b → b.paramCount ≠ k) →
      pickFromMatches filePath allLines methodName k best ms
        = (selectStrictMin k best ms).map
            (fun m => methodLocAt filePath allLines methodName m.line) := by
  intro ms
  induction ms with
  | nil =>
    intro best hb
    simp [pickFromMatches, selectStrictMin, finishMethodBest_eq_map]
  | cons m ms ih =>
    intro best hb
    by_cases he : m.paramCount = k
    · have hbet : isBetter m.paramCount k best = true := by
        cases best with
        | none => rfl
        | some b =>
          have hbne := hb b rfl
          simp only [isBetter, he, decide_eq_true_eq]
          have hpos : 0 < natDist b.paramCount k := by
            rcases Nat.eq_zero_or_pos (natDist b.paramCount k) with hz | hp
            · exfalso
              apply hbne
              simp only [natDist, Int.natAbs_eq_zero, sub_eq_zero] at hz
              exact_mod_cast hz
            · exact hp
          simpa [natDist] using hpos
      have hzero : natDist m.paramCount k = 0 := by simp [natDist, he]
      have hL : pickFromMatches filePath allLines methodName k best (m :: ms)
          = some (methodLocAt filePath allLines methodName m.line) := by
        simp only [pickFromMatches]
        rw [if_pos he]
      have hR : selectStrictMin k best (m :: ms) = some m := by
        simp only [selectStrictMin]
        rw [if_pos hbet]
        exact selectStrictMin_zero k m hzero ms
      rw [hL, hR]
      rfl
    · simp only [pickFromMatches, selectStrictMin, he, if_false]
      apply ih
      intro b hbeq
      by_cases hbet : isBetter m.paramCount k best = true
      · rw [if_pos hbet] at hbeq
        obtain rfl : m = b := by simpa using hbeq
        exact he
      · rw [if_neg hbet] at hbeq
        exact hb b hbeq

theorem selectStrictMin_some_ne_none (k : Nat) :
    ∀ (ms : List MethodMatch) (b : MethodMatch),
      selectStrictMin k (some b) ms ≠ none
  | [], b => by simp [selectStrictMin]
  | m :: ms, b => by
    simp only [selectStrictMin]
    by_cases hbet : isBetter m.paramCount k (some b) = true
    · rw [if_pos hbet]
      exact selectStrictMin_some_ne_none k ms m
    · rw [if_neg hbet]
      exact selectStrictMin_some_ne_none k ms b

theorem selectStrictMin_none_iff (k : Nat) (ms : List MethodMatch) :
    selectStrictMin k none ms = none ↔ ms = [] := by
  cases ms with
  | nil => simp [selectStrictMin]
  | cons m ms =>
    simp only [selectStrictMin, isBetter, if_true]
    constructor
    · intro h
      exact absurd h (selectStrictMin_some_ne_none k ms m)
    · intro h; cases h

theorem selectStrictMin_some_spec (k : Nat) :
    ∀ (ms : List MethodMatch) (b x : MethodMatch),
      selectStrictMin k (some b) ms = some x →
      (∀ y ∈ ms, natDist x.paramCount k ≤ natDist y.paramCount k) ∧
      natDist x.paramCount k ≤ natDist b.paramCount k ∧
      (x = b ∨ ∃ pre post, ms = pre ++ x :: post ∧
        natDist x.paramCount k < natDist b.paramCount k ∧
        ∀ y ∈ pre, natDist x.paramCount k < natDist y.paramCount k) := by
  intro ms
  induction ms with
  | nil =>
    intro b x h
    obtain rfl : b = x := by simpa [selectStrictMin] using h
    exact ⟨by simp, le_refl _, Or.inl rfl⟩
  | cons m ms ih =>
    intro b x h
    simp only [selectStrictMin] at h
    by_cases hbet : isBetter m.paramCount k (some b) = true
    · rw [if_pos hbet] at h
      have hlt : natDist m.paramCount k < natDist b.paramCount k := by
        simpa [isBetter] using hbet
      obtain ⟨hmin, hacc, hsplit⟩ := ih m x h
      refine ⟨?_, ?_, ?_⟩
      · intro y hy
        rcases List.mem_cons.mp hy with rfl | hy2
        · exact hacc
        · exact hmin y hy2
      · exact le_of_lt (lt_of_le_of_lt hacc hlt)
      · rcases hsplit with rfl | ⟨pre, post, hms, hxb, hpre⟩
        · exact Or.inr ⟨[], ms, rfl, hlt, by simp⟩
        · refine Or.inr ⟨m :: pre, post, by simp [hms], lt_of_le_of_lt hacc hlt, ?_⟩
          intro y hy
          rcases List.mem_cons.mp hy with rfl | hy2
          · exact hxb
          · exact hpre y hy2
    · rw [if_neg hbet] at h
      have hge : natDist b.paramCount k ≤ natDist m.paramCount k := by
        simp only [isBetter, decide_eq_true_eq] at hbet
        omega
      obtain ⟨hmin, hacc, hsplit⟩ := ih b x h
      refine ⟨?_, hacc, ?_⟩
      · intro y hy
        rcases List.mem_cons.mp hy with rfl | hy2
        · exact le_trans hacc hge
        · exact hmin y hy2
      · rcases hsplit with rfl | ⟨pre, post, hms, hxb, hpre⟩
        · exact Or.inl rfl
        · refine Or.inr ⟨m :: pre, post, by simp [hms], hxb, ?_⟩
          intro y hy
          rcases List.mem_cons.mp hy with rfl | hy2
          · exact lt_of_lt_of_le hxb hge
          · exact hpre y hy2

theorem selectStrictMin_none_spec (k : Nat) (ms : List MethodMatch) (x : MethodMatch)
    (h : selectStrictMin k none ms = some x) :
    ∃ pre post, ms = pre ++ x :: post ∧
      (∀ y ∈ pre, natDist x.paramCount k < natDist y.paramCount k) ∧
      (∀ y ∈ ms, natDist x.paramCount k ≤ natDist y.paramCount k) := by
  cases ms with
  | nil => simp [selectStrictMin] at h
  | cons m ms =>
    simp only [selectStrictMin, isBetter, if_true] at h
    obtain ⟨hmin, hacc, hsplit⟩ := selectStrictMin_some_spec k ms m x h
    rcases hsplit with rfl | ⟨pre, post, hms, hxm, hpre⟩
    · refine ⟨[], ms, rfl, by simp, ?_⟩
      intro y hy
      rcases List.mem_cons.mp hy with rfl | hy2
      · exact le_refl _
      · exact hmin y hy2
    · refine ⟨m :: pre, post, by simp [hms], ?_, ?_⟩
      · intro y hy
        rcases List.mem_cons.mp hy with rfl | hy2
        · exact hxm
        · exact hpre y hy2
      · intro y hy
        rcases List.mem_cons.mp hy with rfl | hy2
        · exact le_of_lt hxm
        · exact hmin y hy2

/-- The search-path loop of `findJavaMethodDefinition` (src/server.ts lines
246-335): same path candidates and file search as the class lookup, then
the per-file method scan. -/
def tryMethodSearchPaths (fsys : FsObj) (classFile simpleName methodName : JStr)
    (parameterCount : Nat) : List FsPath → Except Unit (Option JLocation)
  | [] => .ok none
  | sp :: rest =>
    if existsSync fsys sp then
      match findFileRecursive fsys sp classFile with
      | .error e => .error e
      | .ok none => tryMethodSearchPaths fsys classFile simpleName methodName parameterCount rest
      | .ok (some filePath) =>
        match readFileSync fsys filePath with
        | .error e => .error e
        | .ok content =>
          match findJavaMethodInLines filePath (splitOnChar '\n' content)
              simpleName methodName parameterCount with
          | some loc => .ok (some loc)
          | none => tryMethodSearchPaths fsys classFile simpleName methodName parameterCount rest
    else tryMethodSearchPaths fsys classFile simpleName methodName parameterCount rest

/-- The source-root loop of `findJavaMethodDefinition` (line 237). -/
def tryMethodRoots (fsys : FsObj) (classFile simpleName methodName : JStr)
    (parameterCount : Nat) (pkgSegs : List JStr) (usePkg : Bool) :
    List FsPath → Except Unit (Option JLocation)
  | [] => .ok none
  | srcPath :: rest =>
    match tryMethodSearchPaths fsys classFile simpleName methodName parameterCount
        (possibleSearchPaths srcPath pkgSegs usePkg) with
    | .error e => .error e
    | .ok (some loc) => .ok (some loc)
    | .ok none =>
      tryMethodRoots fsys classFile simpleName methodName parameterCount pkgSegs usePkg rest

/-- Embeds `findJavaMethodDefinition` (src/server.ts lines 227-340). -/
def findJavaMethodDefinition (fsys : FsObj) (javaSourcePaths : List FsPath)
    (className methodName : JStr) (parameterCount : Nat) : Except Unit (Option JLocation) :=
  tryMethodRoots fsys (simpleClassNameOf className ++ ".java".toList)
    (simpleClassNameOf className) methodName parameterCount
    (packageSegsOf className) (packagePathOf className ≠ []) javaSourcePaths

theorem tryMethodSearchPaths_sound (fsys : FsObj) (classFile simpleName methodName : JStr)
    (parameterCount : Nat) :
    ∀ (sps : List FsPath) (loc : JLocation),
      tryMethodSearchPaths fsys classFile simpleName methodName parameterCount sps
        = .ok (some loc) →
      ∃ filePath content,
        readFileSync fsys filePath = .ok content ∧
        findJavaMethodInLines filePath (splitOnChar '\n' content)
          simpleName methodName parameterCount = some loc := by
  intro sps
  induction sps with
  | nil => intro loc h; simp [tryMethodSearchPaths] at h
  | cons sp rest ih =>
    intro loc h
    simp only [tryMethodSearchPaths] at h
    split_ifs at h with hex
    · rcases hf : findFileRecursive fsys sp classFile with e | ofp
      · simp only [hf] at h
        exact Except.noConfusion h
      · rcases ofp with - | fp
        · simp only [hf] at h
          exact ih loc h
        · simp only [hf] at h
          rcases hr : readFileSync fsys fp with e | content
          · simp only [hr] at h
            exact Except.noConfusion h
          · simp only [hr] at h
            rcases hsc : findJavaMethodInLines fp (splitOnChar '\n' content)
                simpleName methodName parameterCount with - | loc'
            · simp only [hsc] at h
              exact ih loc h
            · simp only [hsc] at h
              obtain rfl : loc' = loc := by simpa using h
              exact ⟨fp, content, hr, hsc⟩
    · exact ih loc h

theorem tryMethodRoots_sound (fsys : FsObj) (classFile simpleName methodName : JStr)
    (parameterCount : Nat) (pkgSegs : List JStr) (usePkg : Bool) :
    ∀ (roots : List FsPath) (loc : JLocation),
      tryMethodRoots fsys classFile simpleName methodName parameterCount pkgSegs usePkg roots
        = .ok (some loc) →
      ∃ filePath content,
        readFileSync fsys filePath = .ok content ∧
        findJavaMethodInLines filePath (splitOnChar '\n' content)
          simpleName methodName parameterCount = some loc := by
  intro roots
  induction roots with
  | nil => intro loc h; simp [tryMethodRoots] at h
  | cons r rest ih =>
    intro loc h
    simp only [tryMethodRoots] at h
    rcases hsp : tryMethodSearchPaths fsys classFile simpleName methodName parameterCount
        (possibleSearchPaths r pkgSegs usePkg) with e | oloc
    · simp only [hsp] at h
      exact Except.noConfusion h
    · rcases oloc with - | loc'
      · simp only [hsp] at h
        exact ih loc h
      · simp only [hsp] at h
        obtain rfl : loc' = loc := by simpa using h
        exact tryMethodSearchPaths_sound fsys classFile simpleName methodName parameterCount _ _ hsp

theorem natDist_eq_zero_iff (a b : Nat) : natDist a b = 0 ↔ a = b := by
  simp [natDist, Int.natAbs_eq_zero, sub_eq_zero, Nat.cast_inj]

theorem findJavaMethodInLines_eq_select (filePath : FsPath) (lines : List JStr)
    (simpleName methodName : JStr) (k : Nat) :
    findJavaMethodInLines filePath lines simpleName methodName k
      = (selectStrictMin k none (collectMethodMatches simpleName methodName lines 0 false 0)).map
          (fun m => methodLocAt filePath lines methodName m.line) := by
  rw [findJavaMethodInLines,
    scanMethodAux_eq_pick filePath lines simpleName methodName k lines 0 false 0 none
      (List.drop_zero lines).symm,
    pickFromMatches_eq_select filePath lines methodName k _ none
      (fun b hb => Option.noConfusion hb)]

/-- C6: for every class file, the method scan returns nothing exactly when
it sees no same-named declaration; any returned Location is the first
declaration (in scan order) minimizing the absolute parameter-count
difference to the requested count, so an exact match wins when one exists
and ties go to the first-declared overload; and every Location the full
`findJavaMethodDefinition` returns comes from that per-file scan of the
file it read. -/
theorem c6_overload_nearest_selection :
    (∀ (filePath : FsPath) (lines : List JStr) (simpleName methodName : JStr) (k : Nat),
      (findJavaMethodInLines filePath lines simpleName methodName k = none ↔
        collectMethodMatches simpleName methodName lines 0 false 0 = []) ∧
      (∀ loc, findJavaMethodInLines filePath lines simpleName methodName k = some loc →
        ∃ pre m post,
          collectMethodMatches simpleName methodName lines 0 false 0 = pre ++ m :: post ∧
          loc = methodLocAt filePath lines methodName m.line ∧
          (∀ m2 ∈ collectMethodMatches simpleName methodName lines 0 false 0,
            natDist m.paramCount k ≤ natDist m2.paramCount k) ∧
          (∀ m2 ∈ pre, natDist m.paramCount k < natDist m2.paramCount k) ∧
          ((∃ m2 ∈ collectMethodMatches simpleName methodName lines 0 false 0,
            m2.paramCount = k) → m.paramCount = k))) ∧
    (∀ (fsys : FsObj) (roots : List FsPath) (className methodName : JStr) (k : Nat)
        (loc : JLocation),
      findJavaMethodDefinition fsys roots className methodName k = .ok (some loc) →
      ∃ filePath content, readFileSync fsys filePath = .ok content ∧
        findJavaMethodInLines filePath (splitOnChar '\n' content)
          (simpleClassNameOf className) methodName k = some loc) := by
  constructor
  · intro filePath lines simpleName methodName k
    have heq := findJavaMethodInLines_eq_select filePath lines simpleName methodName k
    constructor
    · rw [heq]
      rw [Option.map_eq_none']
      exact selectStrictMin_none_iff k _
    · intro loc h
      rw [heq] at h
      rcases hsel : selectStrictMin k none
          (collectMethodMatches simpleName methodName lines 0 false 0) with - | m
      · rw [hsel] at h; cases h
      · rw [hsel] at h
        obtain rfl : methodLocAt filePath lines methodName m.line = loc := by simpa using h
        obtain ⟨pre, post, hms, hpre, hmin⟩ := selectStrictMin_none_spec k _ m hsel
        refine ⟨pre, m, post, hms, rfl, hmin, hpre, ?_⟩
        intro ⟨m2, hm2, hm2k⟩
        have h1 := hmin m2 hm2
        rw [← natDist_eq_zero_iff]
        have h2 : natDist m2.paramCount k = 0 := (natDist_eq_zero_iff _ _).mpr hm2k
        omega
  · intro fsys roots className methodName k loc h
    exact tryMethodRoots_sound fsys _ _ methodName k _ _ roots loc h

/-- Class file lines with two `foo` overloads of 1 and 3 parameters
(C6 witness input). -/
def linesC6 : List JStr :=
  splitOnChar '\n' "class A\nvoid foo(int a)\nvoid foo(int a, int b, int c)".toList

/-- Witness for C6: requesting 3 parameters selects the 3-parameter
overload on line 2, and the selection facts hold for it. -/
theorem c6_overload_nearest_selection_witness :
    ∃ pre m post,
      collectMethodMatches "A".toList "foo".toList linesC6 0 false 0 = pre ++ m :: post ∧
      (⟨["f".toList], 2, 5, 8⟩ : JLocation)
        = methodLocAt ["f".toList] linesC6 "foo".toList m.line ∧
      (∀ m2 ∈ collectMethodMatches "A".toList "foo".toList linesC6 0 false 0,
        natDist m.paramCount 3 ≤ natDist m2.paramCount 3) ∧
      (∀ m2 ∈ pre, natDist m.paramCount 3 < natDist m2.paramCount 3) ∧
      ((∃ m2 ∈ collectMethodMatches "A".toList "foo".toList linesC6 0 false 0,
        m2.paramCount = 3) → m.paramCount = 3) :=
  (c6_overload_nearest_selection.1 ["f".toList] linesC6 "A".toList "foo".toList 3).2
    ⟨["f".toList], 2, 5, 8⟩ (by decide)

/-- One anchored attempt, at position `i`, of the call-site regex the
handler builds (src/server.ts line 936):
`«class»\.«method»\s*\([^;{]*[);]` with the class dots escaped.  Returns
the exclusive end index of the match.  The greedy tail takes the maximal
run free of `;` and `{` after the parenthesis; it ends at a following `;`,
or backtracks to the last `)` inside the run. -/
def matchCallAt (text cls mn : JStr) (i : Nat) : Option Nat :=
  if hasSubAt text (cls ++ '.' :: mn) i then
    let j := i + cls.length + 1 + mn.length
    let w := wsRunAt text j
    if text.getD (j + w) ' ' == '(' then
      let p := j + w + 1
      let run := ((text.drop p).takeWhile (fun c => c != ';' && c != '\x7b')).length
      if text.getD (p + run) ' ' == ';' then
        some (p + run + 1)
      else
        match lastIdxOpt ')' ((text.drop p).take run) with
        | some q => some (p + q + 1)
        | none => none
    else none
  else none

/-- `text.matchAll(pattern)` for the call-site regex: scan left to right,
recording `(index, matchedText)` and continuing after each match (regex
`lastIndex` semantics).  The fuel counts remaining scan steps; matches
advance the position by at least one, so `text.length` steps suffice. -/
def allCallMatchesAux (text cls mn : JStr) : Nat → Nat → List (Nat × JStr)
  | 0, _ => []
  | fuel + 1, i =>
    if text.length ≤ i then []
    else
      match matchCallAt text cls mn i with
      | some e => (i, (text.take e).drop i) :: allCallMatchesAux text cls mn fuel (max e (i + 1))
      | none => allCallMatchesAux text cls mn fuel (i + 1)

def allCallMatches (text cls mn : JStr) : List (Nat × JStr) :=
  allCallMatchesAux text cls mn text.length 0

/-- The closest-match selection loop over the call-site matches
(src/server.ts lines 940-950): strictly smaller distance to the cursor
offset replaces the best match, so the first found wins ties. -/
def selectClosestCall (positionOffset : Nat) :
    List (Nat × JStr) → Option (Nat × JStr) → Option (Nat × JStr)
  | [], best => best
  | m :: ms, best =>
    if (match best with
        | none => true
        | some b => decide (natDist m.1 positionOffset < natDist b.1 positionOffset)) then
      selectClosestCall positionOffset ms (some m)
    else selectClosestCall positionOffset ms best

/-- The method-call resolution branch of the definition handler
(src/server.ts lines 934-971), given the already-split class and method
names: find the call site closest to the cursor and count its arguments;
with no call site anywhere, try the method locator with zero arguments,
then fall back to the class definition. -/
def methodCallBranch (fsys : FsObj) (roots : List FsPath) (text : JStr)
    (positionOffset : Nat) (className methodName : JStr) : Except Unit (Option JLocation) :=
  match selectClosestCall positionOffset (allCallMatches text className methodName) none with
  | some bestMatch =>
    let params := extractMethodParameters bestMatch.2
      (jsIndexOfSub bestMatch.2 "(".toList).toNat
    findJavaMethodDefinition fsys roots className methodName params.length
  | none =>
    match findJavaMethodDefinition fsys roots className methodName 0 with
    | .error e => .error e
    | .ok (some methodDef) => .ok (some methodDef)
    | .ok none => findJavaDefinition fsys roots className

theorem selectClosestCall_some_spec (off : Nat) :
    ∀ (ms : List (Nat × JStr)) (b x : Nat × JStr),
      selectClosestCall off ms (some b) = some x →
      (∀ y ∈ ms, natDist x.1 off ≤ natDist y.1 off) ∧
      natDist x.1 off ≤ natDist b.1 off ∧
      (x = b ∨ ∃ pre post, ms = pre ++ x :: post ∧
        natDist x.1 off < natDist b.1 off ∧
        ∀ y ∈ pre, natDist x.1 off < natDist y.1 off) := by
  intro ms
  induction ms with
  | nil =>
    intro b x h
    obtain rfl : b = x := by simpa [selectClosestCall] using h
    exact ⟨by simp, le_refl _, Or.inl rfl⟩
  | cons m ms ih =>
    intro b x h
    simp only [selectClosestCall] at h
    by_cases hbet : natDist m.1 off < natDist b.1 off
    · rw [if_pos (by simpa using hbet)] at h
      obtain ⟨hmin, hacc, hsplit⟩ := ih m x h
      refine ⟨?_, ?_, ?_⟩
      · intro y hy
        rcases List.mem_cons.mp hy with rfl | hy2
        · exact hacc
        · exact hmin y hy2
      · exact le_of_lt (lt_of_le_of_lt hacc hbet)
      · rcases hsplit with rfl | ⟨pre, post, hms, hxm, hpre⟩
        · exact Or.inr ⟨[], ms, rfl, hbet, by simp⟩
        · refine Or.inr ⟨m :: pre, post, by simp [hms], lt_of_le_of_lt hacc hbet, ?_⟩
          intro y hy
          rcases List.mem_cons.mp hy with rfl | hy2
          · exact hxm
          · exact hpre y hy2
    · rw [if_neg (by simpa using hbet)] at h
      have hge : natDist b.1 off ≤ natDist m.1 off := Nat.le_of_not_lt hbet
      obtain ⟨hmin, hacc, hsplit⟩ := ih b x h
      refine ⟨?_, hacc, ?_⟩
      · intro y hy
        rcases List.mem_cons.mp hy with rfl | hy2
        · exact le_trans hacc hge
        · exact hmin y hy2
      · rcases hsplit with rfl | ⟨pre, post, hms, hxb, hpre⟩
        · exact Or.inl rfl
        · refine Or.inr ⟨m :: pre, post, by simp [hms], hxb, ?_⟩
          intro y hy
          rcases List.mem_cons.mp hy with rfl | hy2
          · exact lt_of_lt_of_le hxb hge
          · exact hpre y hy2

theorem selectClosestCall_none_spec (off : Nat) (ms : List (Nat × JStr)) (x : Nat × JStr)
    (h : selectClosestCall off ms none = some x) :
    ∃ pre post, ms = pre ++ x :: post ∧
      (∀ y ∈ pre, natDist x.1 off < natDist y.1 off) ∧
      (∀ y ∈ ms, natDist x.1 off ≤ natDist y.1 off) := by
  cases ms with
  | nil => simp [selectClosestCall] at h
  | cons m ms =>
    simp only [selectClosestCall, if_true] at h
    obtain ⟨hmin, hacc, hsplit⟩ := selectClosestCall_some_spec off ms m x h
    rcases hsplit with rfl | ⟨pre, post, hms, hxm, hpre⟩
    · refine ⟨[], ms, rfl, by simp, ?_⟩
      intro y hy
      rcases List.mem_cons.mp hy with rfl | hy2
      · exact le_refl _
      · exact hmin y hy2
    · refine ⟨m :: pre, post, by simp [hms], ?_, ?_⟩
      · intro y hy
        rcases List.mem_cons.mp hy with rfl | hy2
        · exact hxm
        · exact hpre y hy2
      · intro y hy
        rcases List.mem_cons.mp hy with rfl | hy2
        · exact le_of_lt hxm
        · exact hmin y hy2

/-- C7: among the call-site matches, the handler selects the one whose
start offset is closest to the cursor, ties to the first found (earliest in
match order); with no call site in the document, the branch runs the method
locator with argument count zero (falling back to the class definition only
when that locator finds nothing); and whenever the per-file scan sees at
least one same-named declaration, the locator's nearest-match policy still
selects one (the scan does not return none). -/
theorem c7_closest_call_site :
    (∀ (off : Nat) (ms : List (Nat × JStr)) (x : Nat × JStr),
      selectClosestCall off ms none = some x →
      ∃ pre post, ms = pre ++ x :: post ∧
        (∀ y ∈ pre, natDist x.1 off < natDist y.1 off) ∧
        (∀ y ∈ ms, natDist x.1 off ≤ natDist y.1 off)) ∧
    (∀ (fsys : FsObj) (roots : List FsPath) (text : JStr) (off : Nat) (cls mn : JStr),
      allCallMatches text cls mn = [] →
      methodCallBranch fsys roots text off cls mn =
        (match findJavaMethodDefinition fsys roots cls mn 0 with
         | .error e => .error e
         | .ok (some d) => .ok (some d)
         | .ok none => findJavaDefinition fsys roots cls)) ∧
    (∀ (filePath : FsPath) (lines : List JStr) (simpleName methodName : JStr),
      collectMethodMatches simpleName methodName lines 0 false 0 ≠ [] →
      findJavaMethodInLines filePath lines simpleName methodName 0 ≠ none) := by
  refine ⟨selectClosestCall_none_spec, ?_, ?_⟩
  · intro fsys roots text off cls mn hempty
    unfold methodCallBranch
    rw [hempty]
    rfl
  · intro filePath lines simpleName methodName hne hcon
    rw [findJavaMethodInLines_eq_select, Option.map_eq_none'] at hcon
    exact hne ((selectStrictMin_none_iff 0 _).mp hcon)

/-- Witness for C7: two call sites at offsets 5 and 11 with the cursor at
offset 8 are equally distant; the selection keeps the first found. -/
theorem c7_closest_call_site_witness :
    ∃ pre post,
      ([(5, "a".toList), (11, "b".toList)] : List (Nat × JStr))
        = pre ++ (5, "a".toList) :: post ∧
      (∀ y ∈ pre, natDist (5, "a".toList).1 8 < natDist y.1 8) ∧
      (∀ y ∈ ([(5, "a".toList), (11, "b".toList)] : List (Nat × JStr)),
        natDist (5, "a".toList).1 8 ≤ natDist y.1 8) :=
  c7_closest_call_site.1 8 [(5, "a".toList), (11, "b".toList)] (5, "a".toList) (by decide)

/-- The backward delimiter scan of the definition handler (src/server.ts
lines 840-846): from the cursor offset, step back at most 300 characters
looking for the first position where the text reads `<%`. -/
def findBlockStart (text : JStr) (offset : Nat) : Option Nat :=
  ((List.range (min offset 300 + 1)).find?
    (fun k => hasSubAt text "<%".toList (offset - k))).map (fun k => offset - k)

/-- The forward delimiter scan (lines 848-854): from the cursor offset,
step forward while below `min(length, offset + 300)` looking for `%>`;
the block end is two past the delimiter start. -/
def findBlockEnd (text : JStr) (offset : Nat) : Option Nat :=
  ((List.range' offset (min text.length (offset + 300) - offset)).find?
    (fun i => hasSubAt text "%>".toList i)).map (fun i => i + 2)

/-- `jspImportCheck` (lines 856-859): the substring between the found
delimiters when both exist and are ordered, else the empty string. -/
def jspImportCheck (text : JStr) (offset : Nat) : JStr :=
  match findBlockStart text offset, findBlockEnd text offset with
  | some s, some e => if s < e then (text.take e).drop s else []
  | _, _ => []

def firstSubIdxFrom (s sub : JStr) (i0 : Nat) : Option Nat :=
  (firstSubIdx (s.drop i0) sub).map (· + i0)

def firstCharIdxFrom (s : JStr) (c : Char) (i0 : Nat) : Option Nat :=
  (firstIdxOpt c (s.drop i0)).map (· + i0)

/-- One anchored attempt of the regex `<%@\s*page[\s\S]*?import="([^"]*?)"`
at position `p`: the directive opener, greedy whitespace, `page`, the lazy
gap to the first following `import="`, and the lazy capture up to the next
quote. -/
def pageImportAt (s : JStr) (p : Nat) : Option JStr :=
  if hasSubAt s "<%@".toList p then
    let q := p + 3 + wsRunAt s (p + 3)
    if hasSubAt s "page".toList q then
      match firstSubIdxFrom s "import=\"".toList (q + 4) with
      | none => none
      | some r =>
        match firstCharIdxFrom s '"' (r + 8) with
        | none => none
        | some e => some ((s.take e).drop (r + 8))
    else none
  else none

/-- `jspImportCheck.match(importRegex)` capture group 1 (lines 865-866):
the leftmost position where the directive pattern matches. -/
def pageImportMatch (s : JStr) : Option JStr :=
  ((List.range (s.length + 1)).find? (fun p => (pageImportAt s p).isSome)).bind (pageImportAt s)

/-- `String.prototype.indexOf(char, fromIndex)` with clamping. -/
def jsIndexOfCharFrom (s : JStr) (c : Char) (i : Int) : Int :=
  let i0 := (min (max i 0) (s.length : Int)).toNat
  match firstIdxOpt c (s.drop i0) with
  | some q => ((q + i0 : Nat) : Int)
  | none => -1

/-- `String.prototype.lastIndexOf(char, fromIndex)` with clamping: the last
occurrence at an index not above `fromIndex`. -/
def jsLastIndexOfCharFrom (s : JStr) (c : Char) (i : Int) : Int :=
  let i0 := (min (max i 0) (s.length : Int)).toNat
  match lastIdxOpt c (s.take (i0 + 1)) with
  | some q => (q : Int)
  | none => -1

/-- The import-directive branch of the definition handler (src/server.ts
lines 839-903): find the enclosing directive block within ±300 characters,
extract the `import` attribute value, and cut out the comma-separated
entry under the cursor (trimmed). -/
def importBranch (text : JStr) (offset : Nat) : Option JStr :=
  let jspCheck := jspImportCheck text offset
  if jspCheck ≠ [] then
    match pageImportMatch jspCheck with
    | none => none
    | some importContent =>
      match findBlockStart text offset with
      | none => none
      | some start =>
        let relativeOffsetInBlock : Int := (offset : Int) - (start : Int)
        let importContentStart : Int := jsIndexOfSub jspCheck importContent
        let relativeOffsetInImport : Int := relativeOffsetInBlock - importContentStart
        let pkgStart0 := jsLastIndexOfCharFrom importContent ',' (relativeOffsetInImport - 1)
        let pkgStart : Int := if pkgStart0 == -1 then 0 else pkgStart0 + 1
        let pkgEnd0 := jsIndexOfCharFrom importContent ',' relativeOffsetInImport
        let pkgEnd : Int := if pkgEnd0 == -1 then (importContent.length : Int) else pkgEnd0
        some (jsTrim (jsSubstring importContent pkgStart pkgEnd))
  else none

/-- The definition handler (src/server.ts lines 804-1021) up to and
including the import-directive branch: a package selected there is resolved
with `findJavaDefinition` and returned immediately, success or failure; all
later steps of the handler are abstracted as `rest`. -/
def resolveDefinitionWith (rest : Except Unit (Option JLocation)) (fsys : FsObj)
    (roots : List FsPath) (text : JStr) (offset : Nat) : Except Unit (Option JLocation) :=
  match importBranch text offset with
  | some selectedPackage => findJavaDefinition fsys roots selectedPackage
  | none => rest

theorem findBlockStart_bounds (text : JStr) (offset s : Nat)
    (h : findBlockStart text offset = some s) :
    offset ≤ s + 300 ∧ s ≤ offset ∧ hasSubAt text "<%".toList s = true := by
  unfold findBlockStart at h
  rcases hf : (List.range (min offset 300 + 1)).find?
      (fun k => hasSubAt text "<%".toList (offset - k)) with - | k
  · rw [hf] at h; cases h
  · rw [hf] at h
    obtain rfl : offset - k = s := by simpa using h
    have hp := List.find?_some hf
    have hm := List.mem_of_find?_eq_some hf
    rw [List.mem_range] at hm
    exact ⟨by omega, Nat.sub_le offset k, by simpa using hp⟩

theorem findBlockEnd_bounds (text : JStr) (offset e : Nat)
    (h : findBlockEnd text offset = some e) :
    offset + 2 ≤ e ∧ e ≤ offset + 300 + 1 ∧ hasSubAt text "%>".toList (e - 2) = true := by
  unfold findBlockEnd at h
  rcases hf : (List.range' offset (min text.length (offset + 300) - offset)).find?
      (fun i => hasSubAt text "%>".toList i) with - | i
  · rw [hf] at h; cases h
  · rw [hf] at h
    obtain rfl : i + 2 = e := by simpa using h
    have hp := List.find?_some hf
    have hm := List.mem_of_find?_eq_some hf
    rw [List.mem_range'] at hm
    obtain ⟨d, hd, rfl⟩ := hm
    refine ⟨by omega, by omega, by simpa using hp⟩

theorem importBranch_blocks (text : JStr) (offset : Nat)
    (h : (importBranch text offset).isSome = true) :
    ∃ s e, findBlockStart text offset = some s ∧ findBlockEnd text offset = some e := by
  unfold importBranch at h
  by_cases hc : jspImportCheck text offset ≠ []
  · have hc2 := hc
    unfold jspImportCheck at hc2
    rcases hs : findBlockStart text offset with - | s
    · rw [hs] at hc2; simp at hc2
    · rcases he : findBlockEnd text offset with - | e
      · rw [hs, he] at hc2; simp at hc2
      · exact ⟨s, e, rfl, rfl⟩
  · rw [if_neg hc] at h
    simp at h

/-- The claim-C4 document: a page-import directive with three
comma-separated entries, embedded in surrounding markup. -/
def textC4 : JStr := "<html><%@ page import=\"a.B,c.D,e.F\" %></html>".toList

/-- C4: with the cursor inside the `c.D` segment of
`<%@ page import="a.B,c.D,e.F" %>`, the handler extracts exactly `c.D`
(not `a.B`, not `e.F`, not the concatenation), the whole request resolves
to `findJavaDefinition` on `c.D` regardless of what the rest of the
handler would do (short-circuit on success or failure), and the directive
block is only ever found within 300 characters on either side of the
cursor. -/
theorem c4_import_directive_segment :
    importBranch textC4 28 = some "c.D".toList ∧
    (∀ (rest : Except Unit (Option JLocation)) (fsys : FsObj) (roots : List FsPath),
      resolveDefinitionWith rest fsys roots textC4 28
        = findJavaDefinition fsys roots "c.D".toList) ∧
    ("c.D".toList ≠ "a.B".toList ∧ "c.D".toList ≠ "e.F".toList ∧
      "c.D".toList ≠ "a.B,c.D,e.F".toList) ∧
    (∀ (text : JStr) (offset : Nat), (importBranch text offset).isSome = true →
      ∃ s e, findBlockStart text offset = some s ∧ findBlockEnd text offset = some e ∧
        offset ≤ s + 300 ∧ s ≤ offset ∧ hasSubAt text "<%".toList s = true ∧
        offset + 2 ≤ e ∧ e ≤ offset + 300 + 1 ∧ hasSubAt text "%>".toList (e - 2) = true) := by
  refine ⟨by decide, ?_, by decide, ?_⟩
  · intro rest fsys roots
    have hb : importBranch textC4 28 = some "c.D".toList := by decide
    simp only [resolveDefinitionWith, hb]
  · intro text offset h
    obtain ⟨s, e, hs, he⟩ := importBranch_blocks text offset h
    obtain ⟨h1, h2, h3⟩ := findBlockStart_bounds text offset s hs
    obtain ⟨h4, h5, h6⟩ := findBlockEnd_bounds text offset e he
    refine ⟨s, e, ?_, ?_, ?_, ?_, ?_, ?_, ?_, ?_⟩ <;> assumption

/-- Witness for C4: the ±300 block-search bound applied at the concrete
directive document. -/
theorem c4_import_directive_segment_witness :
    ∃ s e, findBlockStart textC4 28 = some s ∧ findBlockEnd textC4 28 = some e ∧
      28 ≤ s + 300 ∧ s ≤ 28 ∧ hasSubAt textC4 "<%".toList s = true ∧
      28 + 2 ≤ e ∧ e ≤ 28 + 300 + 1 ∧ hasSubAt textC4 "%>".toList (e - 2) = true :=
  c4_import_directive_segment.2.2.2 textC4 28 (by decide)

/-- Workspace whose package directory `p` is unreadable: `readdirSync`
throws inside the recursive file search (C2 failing input). -/
def fsC2 : FsObj :=
  FsObj.dir true (FsEntries.ofList
    [("ws".toList, FsObj.dir true (FsEntries.ofList
      [("src".toList, FsObj.dir true (FsEntries.ofList
        [("p".toList, FsObj.dir false FsEntries.nil)]))]))])

/-- The claim-C2 document: a page-import directive whose entry `p.Foo`
leads the lookup into the unreadable directory. -/
def textC2 : JStr := "<%@ page import=\"p.Foo\" %>".toList

/-- C2 (code bug): the definition path has no exception handling, so a
filesystem failure escapes instead of becoming a null result:
`findFileRecursive` throws on an unreadable directory, the throw
propagates out of `findJavaDefinition`, and the definition handler's
promise rejects (result `error`, not `ok none`) whatever the rest of the
handler would have done. -/
theorem c2_filesystem_error_escapes :
    findFileRecursive fsC2 ["ws".toList, "src".toList] "Foo.java".toList = .error () ∧
    findJavaDefinition fsC2 [["ws".toList, "src".toList]] "p.Foo".toList = .error () ∧
    (∀ rest : Except Unit (Option JLocation),
      resolveDefinitionWith rest fsC2 [["ws".toList, "src".toList]] textC2 18 = .error ()) := by
  refine ⟨by decide, by decide, ?_⟩
  intro rest
  have hb : importBranch textC2 18 = some "p.Foo".toList := by decide
  simp only [resolveDefinitionWith, hb]
  decide

/-- `String.prototype.endsWith`. -/
def endsWithJ (s suffix : JStr) : Bool := s.drop (s.length - suffix.length) == suffix

/-- Trailing-segment check of the capture `[^;]*\.[A-Z][A-Za-z0-9_]*`: the
text must end with a dot followed by an uppercase letter and word
characters only. -/
def capTailOk (run : JStr) : Bool :=
  match lastIdxOpt '.' run with
  | none => false
  | some j =>
    let tail := run.drop (j + 1)
    tail ≠ [] && (tail.getD 0 ' ').isUpper && tail.all isWordChar

/-- One anchored attempt of `import\s+([^;]*\.[A-Z][A-Za-z0-9_]*);`
(src/server.ts line 988) at position `i`: the literal `import`, at least
one whitespace, then the capture running to the first semicolon, which
must end in a dot-separated capitalized word. -/
def matchJavaImportAt (line : JStr) (i : Nat) : Option JStr :=
  if hasSubAt line "import".toList i then
    let w := wsRunAt line (i + 6)
    if w = 0 then none
    else
      let runStart := i + 6 + w
      let run := (line.drop runStart).takeWhile (fun c => c != ';')
      if line.getD (runStart + run.length) ' ' == ';' && capTailOk run then
        some run
      else none
  else none

/-- `line.match(/import\s+([^;]*\.[A-Z][A-Za-z0-9_]*);/)` capture group 1:
leftmost position where the pattern matches. -/
def matchJavaImport (line : JStr) : Option JStr :=
  ((List.range (line.length + 1)).find? (fun i => (matchJavaImportAt line i).isSome)).bind
    (matchJavaImportAt line)

/-- The capture `[^"]*\.[A-Z][A-Za-z0-9_]*` followed by `"` starting at
`capStart`: up to the first quote, with the capitalized-tail condition. -/
def jspCandidate (line : JStr) (capStart : Nat) : Option JStr :=
  match firstCharIdxFrom line '"' capStart with
  | none => none
  | some e =>
    let cap := (line.take e).drop capStart
    if capTailOk cap then some cap else none

/-- Backtracking of the greedy `[^>]*` before `import="`: try occurrences
from the rightmost offset `k` downwards. -/
def jspImportCandidates (line : JStr) (regionStart : Nat) : Nat → Option JStr
  | 0 =>
    if hasSubAt line "import=\"".toList regionStart
    then jspCandidate line (regionStart + 8) else none
  | k + 1 =>
    match (if hasSubAt line "import=\"".toList (regionStart + k + 1)
           then jspCandidate line (regionStart + k + 1 + 8) else none) with
    | some cap => some cap
    | none => jspImportCandidates line regionStart k

/-- One anchored attempt of
`<%@\s*page[^>]*import="([^"]*\.[A-Z][A-Za-z0-9_]*)"` (src/server.ts
line 995) at position `p`. -/
def matchJspImportAt (line : JStr) (p : Nat) : Option JStr :=
  if hasSubAt line "<%@".toList p then
    let q := p + 3 + wsRunAt line (p + 3)
    if hasSubAt line "page".toList q then
      let region := (line.drop (q + 4)).takeWhile (fun c => c != '>')
      jspImportCandidates line (q + 4) region.length
    else none
  else none

/-- The JSP-import line match: leftmost position where it succeeds. -/
def matchJspImport (line : JStr) : Option JStr :=
  ((List.range (line.length + 1)).find? (fun p => (matchJspImportAt line p).isSome)).bind
    (matchJspImportAt line)

def containsSub (s sub : JStr) : Bool := (firstSubIdx s sub).isSome

/-- The import-line filter of the class-name branch (lines 981-984). -/
def importLinesOf (text : JStr) : List JStr :=
  (splitOnChar '\n' text).filter (fun l =>
    containsSub l "import ".toList ||
    (containsSub l "<%@page".toList && containsSub l "import=".toList))

/-- The JSP-import acceptance on one line (lines 995-999): the capture is
used only when it ends with the bare word. -/
def lookupJspInLine (completeWord l : JStr) : Option JStr :=
  match matchJspImport l with
  | some cap => if endsWithJ cap completeWord then some cap else none
  | none => none

/-- The import-scan loop of the class-name branch (lines 986-1000): per
line, a Java import capture ending with the bare word wins, else a
JSP-import capture ending with it, else the next line. -/
def lookupInImports (completeWord : JStr) : List JStr → Option JStr
  | [] => none
  | l :: rest =>
    match matchJavaImport l with
    | some cap =>
      if endsWithJ cap completeWord then some cap
      else
        match lookupJspInLine completeWord l with
        | some cap2 => some cap2
        | none => lookupInImports completeWord rest
    | none =>
      match lookupJspInLine completeWord l with
      | some cap2 => some cap2
      | none => lookupInImports completeWord rest

/-- The guard `/^[A-Z][A-Za-z0-9_.]*$/` of the class-name branch (line 976). -/
def looksLikeClassName (w : JStr) : Bool :=
  match w with
  | [] => false
  | c :: rest => c.isUpper && rest.all (fun d => isWordChar d || d = '.')

/-- The class-name resolution branch of the definition handler
(src/server.ts lines 976-1003), entered for a word matching
`looksLikeClassName`: resolve through the import lines, else search the
bare word directly. -/
def classNameBranch (fsys : FsObj) (roots : List FsPath) (text completeWord : JStr) :
    Except Unit (Option JLocation) :=
  match lookupInImports completeWord (importLinesOf text) with
  | some fqn => findJavaDefinition fsys roots fqn
  | none => findJavaDefinition fsys roots completeWord

theorem lookupInImports_endsWith (completeWord : JStr) :
    ∀ (lines : List JStr) (cap : JStr),
      lookupInImports completeWord lines = some cap →
      endsWithJ cap completeWord = true := by
  intro lines
  induction lines with
  | nil => intro cap h; simp [lookupInImports] at h
  | cons l rest ih =>
    intro cap h
    simp only [lookupInImports] at h
    rcases hj : matchJavaImport l with - | cap1
    · simp only [hj] at h
      rcases hs : lookupJspInLine completeWord l with - | cap2
      · simp only [hs] at h
        exact ih cap h
      · simp only [hs] at h
        obtain rfl : cap2 = cap := by simpa using h
        unfold lookupJspInLine at hs
        rcases hm : matchJspImport l with - | cap3
        · simp only [hm] at hs
          exact Option.noConfusion hs
        · simp only [hm] at hs
          by_cases hE : endsWithJ cap3 completeWord = true
          · rw [if_pos hE] at hs
            obtain rfl : cap3 = cap2 := by simpa using hs
            exact hE
          · rw [if_neg hE] at hs
            exact Option.noConfusion hs
    · simp only [hj] at h
      split_ifs at h with hE
      · obtain rfl : cap1 = cap := by simpa using h
        exact hE
      · rcases hs : lookupJspInLine completeWord l with - | cap2
        · simp only [hs] at h
          exact ih cap h
        · simp only [hs] at h
          obtain rfl : cap2 = cap := by simpa using h
          unfold lookupJspInLine at hs
          rcases hm : matchJspImport l with - | cap3
          · simp only [hm] at hs
            exact Option.noConfusion hs
          · simp only [hm] at hs
            by_cases hE2 : endsWithJ cap3 completeWord = true
            · rw [if_pos hE2] at hs
              obtain rfl : cap3 = cap2 := by simpa using hs
              exact hE2
            · rw [if_neg hE2] at hs
              exact Option.noConfusion hs

/-- C9: the bare-identifier import lookup accepts an import line whenever
the captured fully-qualified name merely ends with the character string of
the word — proved in general — so the word `Foo` (which reaches this
branch: it is capitalized and dot-free) resolves through
`import a.MyFoo;` to the unrelated `a.MyFoo`, although `Foo` is only a
proper suffix of `MyFoo` and the character before it is `y`, not a dot
boundary. -/
theorem c9_import_suffix_no_boundary :
    (∀ (lines : List JStr) (w cap : JStr),
      lookupInImports w lines = some cap → endsWithJ cap w = true) ∧
    looksLikeClassName "Foo".toList = true ∧
    lookupInImports "Foo".toList (importLinesOf "import a.MyFoo;\n".toList)
      = some "a.MyFoo".toList ∧
    ("a.MyFoo".toList = "a.My".toList ++ "Foo".toList ∧
      ("a.My".toList).getLast? = some 'y' ∧ 'y' ≠ '.') ∧
    (∀ (fsys : FsObj) (roots : List FsPath),
      classNameBranch fsys roots "import a.MyFoo;\n".toList "Foo".toList
        = findJavaDefinition fsys roots "a.MyFoo".toList) := by
  refine ⟨fun lines w cap h => lookupInImports_endsWith w lines cap h,
    by decide, by decide, by decide, ?_⟩
  intro fsys roots
  have hl : lookupInImports "Foo".toList (importLinesOf "import a.MyFoo;\n".toList)
      = some "a.MyFoo".toList := by decide
  simp only [classNameBranch, hl]

/-- Witness for C9: the general suffix-acceptance fact applied to the
concrete import line. -/
theorem c9_import_suffix_no_boundary_witness :
    endsWithJ "a.MyFoo".toList "Foo".toList = true :=
  c9_import_suffix_no_boundary.1 (importLinesOf "import a.MyFoo;\n".toList)
    "Foo".toList "a.MyFoo".toList (by decide)

/-- Modelled from the spec: a zip-format source archive as its list of
(entry path, content) pairs (§4.1 Archive Access Layer); the archive code
itself is not under src/ (the maven-scan test replicates its discovery
helpers from the full server). -/
structure SourceArchive where
  entries : List (JStr × JStr)
deriving DecidableEq

/-- Modelled from the spec: a dependency coordinate `{group, name,
version}` (§3 DependencyCoordinate). -/
structure DepCoordinate where
  groupId : JStr
  artifactId : JStr
  version : JStr
deriving DecidableEq

/-- Modelled from the spec: the deterministic source-archive path formula
`cacheRoot/groupSegments/artifact/version/artifact-version-sources.archive`
(§6). -/
def sourceArchivePathOf (cacheRoot : FsPath) (c : DepCoordinate) : FsPath :=
  cacheRoot ++ splitOnChar '.' c.groupId ++
    [c.artifactId, c.version, c.artifactId ++ '-' :: (c.version ++ "-sources.jar".toList)]

/-- Modelled from the spec: the session extraction caches — the
ExtractedFileCache keyed by (archive path, entry name), and the temp files
written so far (§3 ExtractedFileCache, §4.1). -/
structure ArchiveState where
  extracted : List ((FsPath × JStr) × FsPath)
  files : List (FsPath × JStr)
deriving DecidableEq

/-- Modelled from the spec (§4.1, §3): `extract` writes the entry to a
deterministic path under the temp root mirroring the entry's internal path
segments, caches the result keyed by (archive path, entry name), and on a
later call returns the same cached path, rewriting the file only if it no
longer exists. -/
def extractEntry (archives : List (FsPath × SourceArchive)) (tempRoot : FsPath)
    (st : ArchiveState) (apath : FsPath) (entryName : JStr) :
    Option FsPath × ArchiveState :=
  match archives.lookup apath with
  | none => (none, st)
  | some arch =>
    match arch.entries.lookup entryName with
    | none => (none, st)
    | some content =>
      match st.extracted.lookup (apath, entryName) with
      | some p =>
        if (st.files.lookup p).isSome then (some p, st)
        else (some p, { st with files := (p, content) :: st.files })
      | none =>
        let dest := tempRoot ++ splitOnChar '/' entryName
        (some dest, { extracted := ((apath, entryName), dest) :: st.extracted,
                      files := (dest, content) :: st.files })

/-- Modelled from the spec (§4.5 tier 2): the archive entry that a
fully-qualified name maps to — its slash-form plus the source extension. -/
def archiveEntryNameOf (className : JStr) : JStr :=
  joinWith ['/'] (splitOnChar '.' className) ++ ".java".toList

/-- Modelled from the spec (§4.5 tier 2): for each dependency coordinate in
discovery order, check (via the archive lookup) whether its source archive
contains the entry named by the slash-form of the fully-qualified name plus
the source extension; on the first hit extract it and re-run the same
class-line search used by the workspace tier on the entry's text. -/
def dependencyTierLocate (archives : List (FsPath × SourceArchive)) (cacheRoot tempRoot : FsPath)
    (st : ArchiveState) (className : JStr) :
    List DepCoordinate → Option JLocation × ArchiveState
  | [] => (none, st)
  | c :: rest =>
    let apath := sourceArchivePathOf cacheRoot c
    let entryName := archiveEntryNameOf className
    match (archives.lookup apath).bind (fun a => a.entries.lookup entryName) with
    | none => dependencyTierLocate archives cacheRoot tempRoot st className rest
    | some content =>
      match extractEntry archives tempRoot st apath entryName with
      | (some dest, st') =>
        (scanClassLines dest (simpleClassNameOf className) (expectedPackageOf className)
          (packagePathOf className ≠ []) (splitOnChar '\n' content) [] 0, st')
      | (none, st') => (none, st')

/-- Modelled from the spec (§4.5): the locate operation — tier 1 is the
workspace search (`findJavaDefinition`, embedded from src/server.ts),
tier 2 the dependency archives, reached only when tier 1 finds nothing;
exceptions from tier 1 propagate. -/
def locateWithDependencies (fsys : FsObj) (roots : List FsPath)
    (archives : List (FsPath × SourceArchive)) (coords : List DepCoordinate)
    (cacheRoot tempRoot : FsPath) (st : ArchiveState) (className : JStr) :
    Except Unit (Option JLocation) × ArchiveState :=
  match findJavaDefinition fsys roots className with
  | .error e => (.error e, st)
  | .ok (some loc) => (.ok (some loc), st)
  | .ok none =>
    let r := dependencyTierLocate archives cacheRoot tempRoot st className coords
    (.ok r.1, r.2)

theorem dependencyTier_skip (archives : List (FsPath × SourceArchive))
    (cacheRoot tempRoot : FsPath) (st : ArchiveState) (className : JStr) :
    ∀ (pre rest2 : List DepCoordinate),
      (∀ c2 ∈ pre, (archives.lookup (sourceArchivePathOf cacheRoot c2)).bind
        (fun a => a.entries.lookup (archiveEntryNameOf className)) = none) →
      dependencyTierLocate archives cacheRoot tempRoot st className (pre ++ rest2)
        = dependencyTierLocate archives cacheRoot tempRoot st className rest2 := by
  intro pre
  induction pre with
  | nil => intro rest2 hpre; rfl
  | cons c2 pre2 ih =>
    intro rest2 hpre
    have hnone := hpre c2 (by simp)
    simp only [List.cons_append, dependencyTierLocate, hnone]
    exact ih rest2 (fun x hx => hpre x (by simp [hx]))

/-- C1: with the fully-qualified name absent from every workspace source
root (tier 1 returns nothing) and present as an entry of a resolvable
dependency source archive (earlier coordinates in discovery order
missing it), `locate` returns a Location inside the extracted copy of that
entry — the deterministic temp path mirroring the entry's segments — and
calling it again returns the same Location from the same cached extracted
path, with the extraction state unchanged (idempotent extraction). -/
theorem c1_dependency_archive_cached_extraction
    (fsys : FsObj) (roots : List FsPath) (archives : List (FsPath × SourceArchive))
    (cacheRoot tempRoot : FsPath) (className content : JStr)
    (pre post : List DepCoordinate) (c : DepCoordinate) (loc : JLocation)
    (h1 : findJavaDefinition fsys roots className = .ok none)
    (hpre : ∀ c2 ∈ pre, (archives.lookup (sourceArchivePathOf cacheRoot c2)).bind
      (fun a => a.entries.lookup (archiveEntryNameOf className)) = none)
    (hc : (archives.lookup (sourceArchivePathOf cacheRoot c)).bind
      (fun a => a.entries.lookup (archiveEntryNameOf className)) = some content)
    (hscan : scanClassLines (tempRoot ++ splitOnChar '/' (archiveEntryNameOf className))
      (simpleClassNameOf className) (expectedPackageOf className)
      (packagePathOf className ≠ []) (splitOnChar '\n' content) [] 0 = some loc) :
    locateWithDependencies fsys roots archives (pre ++ c :: post) cacheRoot tempRoot
        ⟨[], []⟩ className
      = (.ok (some loc),
         ⟨[((sourceArchivePathOf cacheRoot c, archiveEntryNameOf className),
            tempRoot ++ splitOnChar '/' (archiveEntryNameOf className))],
          [(tempRoot ++ splitOnChar '/' (archiveEntryNameOf className), content)]⟩) ∧
    loc.path = tempRoot ++ splitOnChar '/' (archiveEntryNameOf className) ∧
    locateWithDependencies fsys roots archives (pre ++ c :: post) cacheRoot tempRoot
        ⟨[((sourceArchivePathOf cacheRoot c, archiveEntryNameOf className),
           tempRoot ++ splitOnChar '/' (archiveEntryNameOf className))],
         [(tempRoot ++ splitOnChar '/' (archiveEntryNameOf className), content)]⟩ className
      = (.ok (some loc),
         ⟨[((sourceArchivePathOf cacheRoot c, archiveEntryNameOf className),
            tempRoot ++ splitOnChar '/' (archiveEntryNameOf className))],
          [(tempRoot ++ splitOnChar '/' (archiveEntryNameOf className), content)]⟩) := by
  rcases harch : archives.lookup (sourceArchivePathOf cacheRoot c) with - | arch
  · rw [harch] at hc; cases hc
  · rw [harch] at hc
    replace hc : arch.entries.lookup (archiveEntryNameOf className) = some content := hc
    have hdest : loc.path = tempRoot ++ splitOnChar '/' (archiveEntryNameOf className) := by
      obtain ⟨t, -, -, hpath, -⟩ := scanClassLines_sound _ _ _ _ _ _ _ _ hscan
      exact hpath
    refine ⟨?_, hdest, ?_⟩
    · simp only [locateWithDependencies, h1]
      rw [dependencyTier_skip archives cacheRoot tempRoot ⟨[], []⟩ className pre (c :: post) hpre]
      simp only [dependencyTierLocate, harch, Option.bind, hc, extractEntry, List.lookup]
      rw [hscan]
    · simp only [locateWithDependencies, h1]
      rw [dependencyTier_skip archives cacheRoot tempRoot _ className pre (c :: post) hpre]
      simp only [dependencyTierLocate, harch, Option.bind, hc, extractEntry, List.lookup,
        beq_self_eq_true, if_true, Option.isSome_some]
      rw [hscan]

/-- A concrete dependency coordinate (C1 witness input). -/
def coordC1 : DepCoordinate := ⟨"com.g".toList, "art".toList, "1.0".toList⟩

/-- A single resolvable source archive holding `com/B.java` (C1 witness
input). -/
def archivesC1 : List (FsPath × SourceArchive) :=
  [(sourceArchivePathOf ["m2".toList] coordC1,
    ⟨[("com/B.java".toList, "package com;\nclass B".toList)]⟩)]

/-- The extraction state after the first C1 lookup: the entry cached under
its (archive path, entry name) key and the temp file written. -/
def stAfterC1 : ArchiveState :=
  ⟨[((sourceArchivePathOf ["m2".toList] coordC1, "com/B.java".toList),
     ["tmp".toList, "com".toList, "B.java".toList])],
   [(["tmp".toList, "com".toList, "B.java".toList], "package com;\nclass B".toList)]⟩

/-- Witness for C1: with no workspace roots and one coordinate whose
archive holds `com/B.java`, locating `com.B` extracts the entry to
`tmp/com/B.java` and returns a Location there; a second call started from
the resulting state returns the same Location with the state unchanged. -/
theorem c1_dependency_archive_cached_extraction_witness :
    locateWithDependencies (FsObj.dir true FsEntries.nil) [] archivesC1 [coordC1]
        ["m2".toList] ["tmp".toList] ⟨[], []⟩ "com.B".toList
      = (.ok (some ⟨["tmp".toList, "com".toList, "B.java".toList], 1, 0, 7⟩), stAfterC1) ∧
    (⟨["tmp".toList, "com".toList, "B.java".toList], 1, 0, 7⟩ : JLocation).path
      = ["tmp".toList] ++ splitOnChar '/' (archiveEntryNameOf "com.B".toList) ∧
    locateWithDependencies (FsObj.dir true FsEntries.nil) [] archivesC1 [coordC1]
        ["m2".toList] ["tmp".toList] stAfterC1 "com.B".toList
      = (.ok (some ⟨["tmp".toList, "com".toList, "B.java".toList], 1, 0, 7⟩), stAfterC1) := by
  have h := c1_dependency_archive_cached_extraction (FsObj.dir true FsEntries.nil) []
    archivesC1 ["m2".toList] ["tmp".toList] "com.B".toList
    "package com;\nclass B".toList [] [] coordC1
    ⟨["tmp".toList, "com".toList, "B.java".toList], 1, 0, 7⟩
    rfl (by simp) (by decide) (by decide)
  exact ⟨h.1, h.2.1, h.2.2⟩

end JspSupport
